import Mathlib

/-!
Verification of the hash-accelerated IN predicate, its optimizer rewrite
rule, the CREATE TABLE auto-increment validator and the error-suppressing
row iterator of go-mysql-server.

The expression evaluator (`InTuple.Eval`, `HashInTuple.Eval`), the hash
index construction (`newInMap`, `hashOf`, `hashOfLiteral`, `hashOfTuple`,
`NewHashInTuple`), the left-operand materialization (`normalizeLeft`), the
rewrite rule (`applyHashIn`), the auto-increment validator
(`validateAutoIncrement`) and the error-handler iterator
(`errorHandlerIter.Next`) are translated from the repository's Go source.
The value/type system (`sql.Type` with Promote, Convert, Compare,
NumColumns), the expression interface (Children/WithChildren of the
external leaf expressions), the plan-tree transform and the row are
external collaborators of the shown code and are modelled from the spec
(sections 3 and 6).
-/

/-- Modelled from the spec: a runtime datum (section 3, Value).  The Go code
passes values as `interface\x7b\x7d` with `nil` for SQL NULL; here a SQL value is
`Option Val` with `none` for NULL.  Integers of two native widths are kept
distinct so that cross-representation canonicalization is observable, and a
tuple value holds the (possibly NULL) element values in order. -/
inductive Val where
  | i32 (n : Int)
  | i64 (n : Int)
  | str (s : String)
  | b (x : Bool)
  | tup (vs : List (Option Val))
  deriving Repr

/-- Modelled from the spec: a Type descriptor (section 3).  `null` is the
distinguished null type sentinel; `tuple ts` is the column-typed composite
used by row-valued comparison. -/
inductive Ty where
  | int32
  | int64
  | boolean
  | text
  | null
  | tuple (ts : List Ty)
  deriving Repr

mutual

def valBEq : Val → Val → Bool
  | .i32 a, .i32 b => a == b
  | .i64 a, .i64 b => a == b
  | .str a, .str b => a == b
  | .b a, .b b => a == b
  | .tup a, .tup b => valBEqList a b
  | _, _ => false

def valBEqOpt : Option Val → Option Val → Bool
  | none, none => true
  | some a, some b => valBEq a b
  | _, _ => false

def valBEqList : List (Option Val) → List (Option Val) → Bool
  | [], [] => true
  | a :: as, b :: bs => valBEqOpt a b && valBEqList as bs
  | _, _ => false

end

mutual

theorem valBEq_iff : ∀ a b : Val, valBEq a b = true ↔ a = b
  | .i32 a, .i32 b => by simp [valBEq]
  | .i64 a, .i64 b => by simp [valBEq]
  | .str a, .str b => by simp [valBEq]
  | .b a, .b b => by simp [valBEq]
  | .tup a, .tup b => by simp [valBEq, valBEqList_iff a b]
  | .i32 _, .i64 _ => by simp [valBEq]
  | .i32 _, .str _ => by simp [valBEq]
  | .i32 _, .b _ => by simp [valBEq]
  | .i32 _, .tup _ => by simp [valBEq]
  | .i64 _, .i32 _ => by simp [valBEq]
  | .i64 _, .str _ => by simp [valBEq]
  | .i64 _, .b _ => by simp [valBEq]
  | .i64 _, .tup _ => by simp [valBEq]
  | .str _, .i32 _ => by simp [valBEq]
  | .str _, .i64 _ => by simp [valBEq]
  | .str _, .b _ => by simp [valBEq]
  | .str _, .tup _ => by simp [valBEq]
  | .b _, .i32 _ => by simp [valBEq]
  | .b _, .i64 _ => by simp [valBEq]
  | .b _, .str _ => by simp [valBEq]
  | .b _, .tup _ => by simp [valBEq]
  | .tup _, .i32 _ => by simp [valBEq]
  | .tup _, .i64 _ => by simp [valBEq]
  | .tup _, .str _ => by simp [valBEq]
  | .tup _, .b _ => by simp [valBEq]

theorem valBEqOpt_iff : ∀ a b : Option Val, valBEqOpt a b = true ↔ a = b
  | none, none => by simp [valBEqOpt]
  | none, some _ => by simp [valBEqOpt]
  | some _, none => by simp [valBEqOpt]
  | some a, some b => by simp [valBEqOpt, valBEq_iff a b]

theorem valBEqList_iff : ∀ a b : List (Option Val), valBEqList a b = true ↔ a = b
  | [], [] => by simp [valBEqList]
  | [], _ :: _ => by simp [valBEqList]
  | _ :: _, [] => by simp [valBEqList]
  | a :: as, b :: bs => by
      simp [valBEqList, valBEqOpt_iff a b, valBEqList_iff as bs]

end

instance : DecidableEq Val := fun a b => decidable_of_iff _ (valBEq_iff a b)

/-- Modelled from the spec: identity check for the null type sentinel
(section 6, Type capability). -/
def Ty.isNull : Ty → Bool
  | .null => true
  | _ => false

/-- Modelled from the spec: `sql.NumColumns` — the column arity of a type;
a tuple type has one column per element, every other type has one. -/
def numColumns : Ty → Nat
  | .tuple ts => ts.length
  | _ => 1

/-- Modelled from the spec: `Type.Promote` widens a type to its canonical
comparison type (section 3).  Both native integer widths and booleans
promote to the wide integer type; text and the null type are their own
promotions, and a tuple type promotes to itself. -/
def Ty.promote : Ty → Ty
  | .int32 => .int64
  | .int64 => .int64
  | .boolean => .int64
  | .text => .text
  | .null => .null
  | .tuple ts => .tuple ts

/-- The error taxonomy of the package: the named error kinds raised by
in.go (`ErrInvalidOperandColumns`, `ErrUnsupportedInOperand`,
`ErrUnsupportedHashInOperand`, `ErrUnsupportedHashInSubexpression`,
`ErrCantHashNestedExpression`, `sql.ErrInvalidType`) together with the
spec's ConversionError (section 7) for a failing `Type.Convert`, an
index-out-of-range kind standing for a Go runtime panic on a slice index,
and a child-count kind for `WithChildren` arity violations. -/
inductive Err where
  | invalidOperandColumns (expected actual : Nat)
  | unsupportedInOperand
  | unsupportedHashInOperand
  | unsupportedHashInSubexpression
  | cantHashNested
  | invalidType
  | convError
  | indexOutOfBounds
  | childCount
  deriving DecidableEq, Repr

mutual

/-- Modelled from the spec: `Type.Convert` (sections 3 and 6) — convert a
value to the canonical representation of a type, or fail with a
ConversionError.  A NULL converts to NULL at every type (as in Go, where
`Convert(nil)` yields `nil, nil`); at the null type every non-NULL value is
rejected.  After conversion a value's representation is fully determined by
the type: the wide integer type accepts both integer widths and booleans
and always represents the result at the wide width. -/
def convertStd : Ty → Option Val → Except Err (Option Val)
  | _, none => .ok none
  | .null, some _ => .error .convError
  | .int32, some v =>
      match v with
      | .i32 n => .ok (some (.i32 n))
      | .i64 n => if n < -(2 ^ 31) ∨ 2 ^ 31 ≤ n then .error .convError else .ok (some (.i32 n))
      | .b x => .ok (some (.i32 (if x then 1 else 0)))
      | _ => .error .convError
  | .int64, some v =>
      match v with
      | .i32 n => .ok (some (.i64 n))
      | .i64 n => .ok (some (.i64 n))
      | .b x => .ok (some (.i64 (if x then 1 else 0)))
      | _ => .error .convError
  | .boolean, some v =>
      match v with
      | .i32 n => .ok (some (.b (n ≠ 0)))
      | .i64 n => .ok (some (.b (n ≠ 0)))
      | .b x => .ok (some (.b x))
      | _ => .error .convError
  | .text, some v =>
      match v with
      | .str s => .ok (some (.str s))
      | _ => .error .convError
  | .tuple ts, some v =>
      match v with
      | .tup vs =>
          match convertStdList ts vs with
          | .error e => .error e
          | .ok ws => .ok (some (.tup ws))
      | _ => .error .convError

/-- Elementwise conversion of a tuple value at a tuple type; the arities
must agree. -/
def convertStdList : List Ty → List (Option Val) → Except Err (List (Option Val))
  | [], [] => .ok []
  | t :: ts, v :: vs =>
      match convertStd t v with
      | .error e => .error e
      | .ok w =>
          match convertStdList ts vs with
          | .error e => .error e
          | .ok ws => .ok (w :: ws)
  | _, _ => .error .convError

end

/-- A total order rank used to compare values of different shapes (never
reached on two values converted to one type). -/
def valRank : Val → Nat
  | .i32 _ => 0
  | .i64 _ => 1
  | .str _ => 2
  | .b _ => 3
  | .tup _ => 4

mutual

/-- Modelled from the spec: the ordering of canonical values underlying
`Type.Compare` (section 6).  Two values of one shape compare by content;
tuple values compare by length and then lexicographically with NULL
elements first. -/
def valCompare : Val → Val → Int
  | .i32 a, .i32 b => if a < b then -1 else if a = b then 0 else 1
  | .i64 a, .i64 b => if a < b then -1 else if a = b then 0 else 1
  | .str a, .str b => if a < b then -1 else if a = b then 0 else 1
  | .b a, .b b => if a = b then 0 else if a = false then -1 else 1
  | .tup a, .tup b => valCompareList a b
  | x, y => (valRank x : Int) - (valRank y : Int)

def valCompareList : List (Option Val) → List (Option Val) → Int
  | [], [] => 0
  | [], _ :: _ => -1
  | _ :: _, [] => 1
  | a :: as, b :: bs =>
      match valCompareOpt a b with
      | 0 => valCompareList as bs
      | c => c

def valCompareOpt : Option Val → Option Val → Int
  | none, none => 0
  | none, some _ => -1
  | some _, none => 1
  | some a, some b => valCompare a b

end

/-- Modelled from the spec: `Type.Compare` (sections 3 and 6).  As in the
engine's comparable types, NULLs order first without error
(`compareNulls`), and both operands are converted to the type before the
canonical comparison; a conversion failure is the comparison's error. -/
def compareStd (t : Ty) (a b : Option Val) : Except Err Int :=
  match a, b with
  | none, none => .ok 0
  | none, some _ => .ok (-1)
  | some _, none => .ok 1
  | some x, some y =>
      match convertStd t (some x) with
      | .error e => .error e
      | .ok cx =>
          match convertStd t (some y) with
          | .error e => .error e
          | .ok cy => .ok (valCompareOpt cx cy)

/-- Modelled from the spec: the dynamically dispatched part of the
`sql.Type` interface consumed by the predicate evaluators — `Convert` and
`Compare` (section 6).  The evaluator receives these through an interface
value in Go, so the embedding takes them as a parameter; `stdSys` is the
standard implementation. -/
structure TypeSys where
  convert : Ty → Option Val → Except Err (Option Val)
  compare : Ty → Option Val → Option Val → Except Err Int

/-- The standard type system implementation. -/
def stdSys : TypeSys := ⟨convertStd, compareStd⟩

/-- Modelled from the spec: a row is an ordered sequence of column values
(section 6). -/
abbrev Row := List (Option Val)

/-- The 64-bit hash key of the index.  `hashOfLiteral` and `hashOfTuple`
hash the stream of deterministic encodings of the converted values (one
`Sprintf` chunk per literal in Go); the external xxhash function is
modelled from the spec (section 4.2: any deterministic 64-bit hash) as the
identity on that stream, so a key is the list of encoded chunks. -/
abbrev HKey := List (Option Val)

/-- The expression variants of the package (section 6): `lit` is
`expression.Literal` (an immutable value and type), `getField` is
`expression.GetField` (a positional field reference), `tuple` is
`expression.Tuple`, `inTuple` and `hashInTuple` are the two membership
predicates of in.go (`hashInTuple` carrying the prebuilt index map and the
`hasNull` always-unknown flag), and `subquery` stands for any other
expression kind (in particular a subquery), opaque to this package. -/
inductive Expr where
  | lit (v : Option Val) (t : Ty)
  | getField (idx : Nat) (t : Ty)
  | tuple (es : List Expr)
  | inTuple (l r : Expr)
  | hashInTuple (l r : Expr) (cmp : List (HKey × Expr)) (hasNull : Bool)
  | subquery (t : Ty)
  deriving Repr

mutual

/-- The `Type()` method of each expression variant: a literal or field
reference carries its type, a tuple's type is the tuple of its elements'
types (modelled from the spec, section 3), and both membership predicates
have the boolean type (in.go's `InTuple.Type`). -/
def exprType : Expr → Ty
  | .lit _ t => t
  | .getField _ t => t
  | .tuple es => .tuple (exprTypeList es)
  | .inTuple _ _ => .boolean
  | .hashInTuple _ _ _ _ => .boolean
  | .subquery t => t

def exprTypeList : List Expr → List Ty
  | [] => []
  | e :: es => exprType e :: exprTypeList es

end

/-- Modelled from the spec: `GetField.Eval` — a field reference reads the
row at its position (section 3); an out-of-range position is an error. -/
def getFieldEval (idx : Nat) (row : Row) : Except Err (Option Val) :=
  match row[idx]? with
  | some v => .ok v
  | none => .error .indexOutOfBounds

mutual

/-- A structural size for expressions: every leaf weighs one regardless of
its payload, so replacing a field reference by a literal of its value never
increases the weight.  Used as the termination measure of the evaluator
(the prebuilt index of a `hashInTuple` is not part of the measure because
evaluation never recurses into it). -/
def weight : Expr → Nat
  | .lit _ _ => 1
  | .getField _ _ => 1
  | .subquery _ => 1
  | .tuple es => 1 + weightList es
  | .inTuple l r => 1 + weight l + weight r
  | .hashInTuple l r _ _ => 1 + weight l + weight r

def weightList : List Expr → Nat
  | [] => 0
  | e :: es => 1 + weight e + weightList es

end

mutual

/-- Modelled from the spec: `expression.TransformUp` — the bottom-up
expression-tree transform (section 6).  Children are transformed first, the
node is rebuilt from them through its `WithChildren`, and the callback is
applied to the rebuilt node.  The per-variant rebuilding follows the
sources: an `inTuple` rebuilds as an `inTuple` (in.go `InTuple.WithChildren`),
and a `hashInTuple` — which does not override the method it embeds — also
rebuilds as a plain `inTuple`; leaves are passed to the callback directly. -/
def exprTransformUp (f : Expr → Except Err Expr) : Expr → Except Err Expr
  | .lit v t => f (.lit v t)
  | .getField i t => f (.getField i t)
  | .subquery t => f (.subquery t)
  | .tuple es =>
      match exprTransformUpList f es with
      | .error e => .error e
      | .ok es' => f (.tuple es')
  | .inTuple l r =>
      match exprTransformUp f l with
      | .error e => .error e
      | .ok l' =>
          match exprTransformUp f r with
          | .error e => .error e
          | .ok r' => f (.inTuple l' r')
  | .hashInTuple l r _ _ =>
      match exprTransformUp f l with
      | .error e => .error e
      | .ok l' =>
          match exprTransformUp f r with
          | .error e => .error e
          | .ok r' => f (.inTuple l' r')

def exprTransformUpList (f : Expr → Except Err Expr) : List Expr → Except Err (List Expr)
  | [] => .ok []
  | e :: es =>
      match exprTransformUp f e with
      | .error err => .error err
      | .ok e' =>
          match exprTransformUpList f es with
          | .error err => .error err
          | .ok es' => .ok (e' :: es')

end

/-- The callback of `normalizeLeft`'s tuple case (in.go lines 303-314):
replace a field reference by a literal holding its value for the current
row and that reference's type; leave every other node unchanged. -/
def fieldToLiteral (row : Row) (e : Expr) : Except Err Expr :=
  match e with
  | .getField i t =>
      match getFieldEval i row with
      | .error err => .error err
      | .ok v => .ok (.lit v t)
  | e => .ok e

/-- in.go `normalizeLeft` (lines 300-326): materialize the left operand
into literals for the current row — a tuple has its nested field
references replaced via the bottom-up transform, a literal is returned
unchanged, a field reference becomes a literal of its value, and any other
shape is `ErrUnsupportedHashInOperand`. -/
def normalizeLeft (row : Row) : Expr → Except Err Expr
  | .tuple es => exprTransformUp (fieldToLiteral row) (.tuple es)
  | .lit v t => .ok (.lit v t)
  | .getField i t =>
      match getFieldEval i row with
      | .error err => .error err
      | .ok v => .ok (.lit v t)
  | _ => .error .unsupportedHashInOperand

mutual

/-- A transform whose callback never increases the weight yields an output
of at most the input's weight (the `hashInTuple` rebuild drops to an
`inTuple` of the same children, so rebuilding never increases it either).
Stated as a definition because the evaluator's termination proof consumes
it. -/
def exprTransformUp_wle (f : Expr → Except Err Expr)
    (hf : ∀ a b, f a = .ok b → weight b ≤ weight a) :
    ∀ e e', exprTransformUp f e = .ok e' → weight e' ≤ weight e
  | .lit v t, e', h => hf _ _ h
  | .getField i t, e', h => hf _ _ h
  | .subquery t, e', h => hf _ _ h
  | .tuple es, e', h => by
      rw [exprTransformUp] at h
      match hes : exprTransformUpList f es with
      | .error e => rw [hes] at h; exact absurd h (by simp)
      | .ok es' =>
          rw [hes] at h
          have h1 := exprTransformUpList_wle f hf es es' hes
          have h2 := hf _ _ h
          simp only [weight] at h2 ⊢
          omega
  | .inTuple l r, e', h => by
      rw [exprTransformUp] at h
      match hl : exprTransformUp f l with
      | .error e => rw [hl] at h; exact absurd h (by simp)
      | .ok l' =>
          rw [hl] at h
          match hr : exprTransformUp f r with
          | .error e => rw [hr] at h; exact absurd h (by simp)
          | .ok r' =>
              rw [hr] at h
              have h1 := exprTransformUp_wle f hf l l' hl
              have h2 := exprTransformUp_wle f hf r r' hr
              have h3 := hf _ _ h
              simp only [weight] at h3 ⊢
              omega
  | .hashInTuple l r cmp hn, e', h => by
      rw [exprTransformUp] at h
      match hl : exprTransformUp f l with
      | .error e => rw [hl] at h; exact absurd h (by simp)
      | .ok l' =>
          rw [hl] at h
          match hr : exprTransformUp f r with
          | .error e => rw [hr] at h; exact absurd h (by simp)
          | .ok r' =>
              rw [hr] at h
              have h1 := exprTransformUp_wle f hf l l' hl
              have h2 := exprTransformUp_wle f hf r r' hr
              have h3 := hf _ _ h
              simp only [weight] at h3 ⊢
              omega

def exprTransformUpList_wle (f : Expr → Except Err Expr)
    (hf : ∀ a b, f a = .ok b → weight b ≤ weight a) :
    ∀ es es', exprTransformUpList f es = .ok es' → weightList es' ≤ weightList es
  | [], es', h => by
      rw [exprTransformUpList] at h
      cases h
      exact Nat.le_refl _
  | e :: es, out, h => by
      rw [exprTransformUpList] at h
      match he : exprTransformUp f e with
      | .error err => rw [he] at h; exact absurd h (by simp)
      | .ok e' =>
          rw [he] at h
          match hes : exprTransformUpList f es with
          | .error err => rw [hes] at h; exact absurd h (by simp)
          | .ok es' =>
              rw [hes] at h
              cases h
              have h1 := exprTransformUp_wle f hf e e' he
              have h2 := exprTransformUpList_wle f hf es es' hes
              simp only [weightList]
              omega

end

/-- The normalization callback never increases the weight: a field
reference of weight one becomes a literal of weight one. -/
def fieldToLiteral_wle (row : Row) :
    ∀ a b, fieldToLiteral row a = .ok b → weight b ≤ weight a := by
  intro a b h
  cases a <;> simp only [fieldToLiteral] at h
  case getField i t =>
    match hv : getFieldEval i row with
    | .error err => rw [hv] at h; exact absurd h (by simp)
    | .ok v => rw [hv] at h; cases h; exact Nat.le_refl _
  all_goals (cases h; exact Nat.le_refl _)

/-- The materialized left operand weighs at most the original left operand;
the evaluator's recursion on it therefore terminates. -/
def normalizeLeft_wle (row : Row) :
    ∀ e e', normalizeLeft row e = .ok e' → weight e' ≤ weight e := by
  intro e e' h
  cases e <;> simp only [normalizeLeft] at h
  case tuple es =>
    exact exprTransformUp_wle (fieldToLiteral row) (fieldToLiteral_wle row) _ _ h
  case lit v t => cases h; exact Nat.le_refl _
  case getField i t =>
    match hv : getFieldEval i row with
    | .error err => rw [hv] at h; exact absurd h (by simp)
    | .ok v => rw [hv] at h; cases h; exact Nat.le_refl _
  all_goals exact absurd h (by simp)

/-- in.go `hashOfLiteral` (lines 268-278): promote the target type, convert
the literal's value, and hash the deterministic encoding of the converted
value; a conversion failure is reported as `sql.ErrInvalidType`.  The key
is the one-chunk encoding stream of the converted value. -/
def hashOfLiteral (S : TypeSys) (v : Option Val) (t : Ty) : Except Err HKey :=
  match S.convert t.promote v with
  | .error _ => .error .invalidType
  | .ok i => .ok [i]

/-- in.go `hashOfTuple` (lines 281-298): hash a tuple expression with
literal leaves, one encoded chunk per element, each element's value
converted at the promoted type of the positionally matching column type; a
non-literal element is `ErrCantHashNestedExpression`, and an element
conversion failure propagates as the conversion's own error.  In Go an
element beyond the tuple type's arity is a runtime slice-index panic,
modelled as the index-out-of-range error. -/
def hashOfTuple (S : TypeSys) : List Expr → List Ty → Except Err HKey
  | [], _ => .ok []
  | el :: rest, ts =>
      match el with
      | .lit v _ =>
          match ts with
          | [] => .error .indexOutOfBounds
          | t :: trest =>
              match S.convert t.promote v with
              | .error e => .error e
              | .ok c =>
                  match hashOfTuple S rest trest with
                  | .error e => .error e
                  | .ok k => .ok (c :: k)
      | _ => .error .cantHashNested

/-- in.go `hashOf` (lines 253-266): a tuple expression hashes via
`hashOfTuple` when the target type is a tuple type (otherwise
`sql.ErrInvalidType`), a literal hashes via `hashOfLiteral`, and any other
expression is `ErrUnsupportedHashInSubexpression`. -/
def hashOf (S : TypeSys) (e : Expr) (t : Ty) : Except Err HKey :=
  match e with
  | .tuple es =>
      match t with
      | .tuple ts => hashOfTuple S es ts
      | _ => .error .invalidType
  | .lit v _ => hashOfLiteral S v t
  | _ => .error .unsupportedHashInSubexpression

/-- Assignment into the Go map `elements`: overwrite the binding of an
existing key, else add the binding. -/
def mapInsert (m : List (HKey × Expr)) (k : HKey) (v : Expr) : List (HKey × Expr) :=
  match m with
  | [] => [(k, v)]
  | (k', v') :: rest => if k' = k then (k, v) :: rest else (k', v') :: mapInsert rest k v

/-- Lookup in the Go map `elements`. -/
def mapLookup (m : List (HKey × Expr)) (k : HKey) : Option Expr :=
  match m with
  | [] => none
  | (k', v') :: rest => if k' = k then some v' else mapLookup rest k

/-- The element loop of in.go `newInMap` (lines 230-246), with the Go map
threaded as an accumulator: a literal or tuple element is hashed at the
left type — a `sql.ErrInvalidType` failure skips the element, any other
failure aborts, success inserts the element under its key — and any other
element kind aborts the whole build with
`ErrUnsupportedHashInSubexpression`. -/
def buildMap (S : TypeSys) : List Expr → Ty → List (HKey × Expr) → Except Err (List (HKey × Expr))
  | [], _, acc => .ok acc
  | el :: rest, lType, acc =>
      match el with
      | .lit _ _ | .tuple _ =>
          match hashOf S el lType with
          | .error .invalidType => buildMap S rest lType acc
          | .error e => .error e
          | .ok key => buildMap S rest lType (mapInsert acc key el)
      | _ => .error .unsupportedHashInSubexpression

/-- in.go `newInMap` (lines 222-251): when the left type is the null type
the index is empty with the always-unknown flag set; otherwise the right
operand must be a tuple (`ErrUnsupportedHashInOperand` if not) and the map
is built from its elements. -/
def newInMap (S : TypeSys) (expr : Expr) (lType : Ty) : Except Err (List (HKey × Expr) × Bool) :=
  if lType.isNull then .ok ([], true)
  else
    match expr with
    | .tuple es =>
        match buildMap S es lType [] with
        | .error e => .error e
        | .ok m => .ok (m, false)
    | _ => .error .unsupportedHashInOperand

/-- in.go `NewHashInTuple` (lines 163-170): build the index from the right
operand and the left operand's declared type; a build failure is the
constructor's failure, success wraps the operands with the index. -/
def NewHashInTuple (S : TypeSys) (left right : Expr) : Except Err Expr :=
  match newInMap S right (exprType left) with
  | .error e => .error e
  | .ok (cmp, hasNull) => .ok (.hashInTuple left right cmp hasNull)

/-- The arity pre-check loop of in.go `InTuple.Eval` (lines 85-89): every
right-hand element's column count must equal the left operand's, and the
first mismatch is `ErrInvalidOperandColumns`. -/
def arityCheck (leftElems : Nat) : List Expr → Option Err
  | [] => none
  | el :: rest =>
      if numColumns (exprType el) ≠ leftElems then
        some (.invalidOperandColumns leftElems (numColumns (exprType el)))
      else arityCheck leftElems rest

mutual

/-- The `Eval` of each expression variant for one row.  A literal yields
its value and a field reference reads the row (modelled from the spec); a
tuple yields the list of its elements' values (never NULL itself); the
opaque other kind does not evaluate.  `inTuple` is in.go `InTuple.Eval`
(lines 60-125): promote the left type, evaluate the left operand, NULL is
unknown, convert the left value, require a tuple right operand, pre-check
every element's arity, then scan the elements in order — an element
evaluating to NULL with the null flag still unset sets it and skips, any
other element is converted and compared, equality returns true at once —
and a scan without match is unknown if the flag was set, else false.
`hashInTuple` is in.go `HashInTuple.Eval` (lines 173-211): the
always-unknown flag returns unknown, the left operand is materialized by
`normalizeLeft` and evaluated, NULL is unknown, the materialized literal is
hashed under the original left operand's declared type, a probe miss
returns false, and a hit returns true after re-checking the hit entry's
column arity against the materialized operand's. -/
def evalExpr (S : TypeSys) : Expr → Row → Except Err (Option Val)
  | .lit v _, _ => .ok v
  | .getField i _, row => getFieldEval i row
  | .subquery _, _ => .error .unsupportedInOperand
  | .tuple es, row => do
      let vs ← evalElems S es row
      .ok (some (.tup vs))
  | .inTuple l r, row => do
      let lv0 ← evalExpr S l row
      match lv0 with
      | none => .ok none
      | some lv => do
          let left ← S.convert (exprType l).promote (some lv)
          match r with
          | .tuple es =>
              match arityCheck (numColumns (exprType l).promote) es with
              | some e => .error e
              | none => inLoop S (exprType l).promote left es row false
          | _ => .error .unsupportedInOperand
  | .hashInTuple l _ cmp hasNull, row =>
      if hasNull then .ok none
      else
        match hnl : normalizeLeft row l with
        | .error e => .error e
        | .ok left => do
            let lv ← evalExpr S left row
            match lv with
            | none => .ok none
            | some _ => do
                let key ← hashOf S left (exprType l)
                match mapLookup cmp key with
                | none => .ok (some (.b false))
                | some right =>
                    if numColumns (exprType right).promote ≠ numColumns (exprType left).promote then
                      .error (.invalidOperandColumns (numColumns (exprType left).promote)
                        (numColumns (exprType right).promote))
                    else .ok (some (.b true))
termination_by e row => weight e
decreasing_by
  all_goals simp_wf
  all_goals first
  | (simp only [weight, weightList]; omega)
  | (have hle := normalizeLeft_wle row l left hnl
     simp only [weight, weightList]
     omega)

/-- `Tuple.Eval`'s element collection (modelled from the spec): each
element evaluates in order and the first failure aborts. -/
def evalElems (S : TypeSys) : List Expr → Row → Except Err (List (Option Val))
  | [], _ => .ok []
  | e :: es, row => do
      let v ← evalExpr S e row
      let vs ← evalElems S es row
      .ok (v :: vs)
termination_by es row => weightList es
decreasing_by
  all_goals simp_wf
  all_goals (simp only [weight, weightList]; omega)

/-- The scan loop of in.go `InTuple.Eval` (lines 91-121) with the
`rightNull` flag threaded: evaluate the element; if it is NULL and the flag
is unset, set the flag and continue without converting or comparing;
otherwise convert it to the promoted left type and compare it with the
converted left value, returning true on equality; an exhausted scan is
unknown when the flag is set and false otherwise. -/
def inLoop (S : TypeSys) (typ : Ty) (left : Option Val) : List Expr → Row → Bool → Except Err (Option Val)
  | [], _, rightNull => if rightNull then .ok none else .ok (some (.b false))
  | el :: rest, row, rightNull => do
      let rv ← evalExpr S el row
      if !rightNull && rv.isNone then inLoop S typ left rest row true
      else do
        let crv ← S.convert typ rv
        let c ← S.compare typ left crv
        if c = 0 then .ok (some (.b true))
        else inLoop S typ left rest row rightNull
termination_by es row b => weightList es
decreasing_by
  all_goals simp_wf
  all_goals (simp only [weight, weightList]; omega)

end

/-- The expression kinds hashable as a left operand in the rewrite's
switch (hash_in.go): a tuple, a literal or a field reference; a subquery
or any other kind is not. -/
def hashInEligible : Expr → Bool
  | .tuple _ => true
  | .lit _ _ => true
  | .getField _ _ => true
  | _ => false

/-- The per-expression callback of `applyHashIn` (hash_in.go lines
110-122): an `InTuple` whose left operand is a tuple, literal or field
reference is replaced by `NewHashInTuple`'s result — including its failure,
which the callback returns as its own — and every other expression
(including an `InTuple` with any other left operand, and a `HashInTuple`,
which the Go type switch does not match) passes through unchanged. -/
def applyHashInExprFn (S : TypeSys) (e : Expr) : Except Err Expr :=
  match e with
  | .inTuple l r =>
      match l with
      | .tuple _ | .lit _ _ | .getField _ _ => NewHashInTuple S l r
      | _ => .ok (.inTuple l r)
  | e => .ok e

/-- Modelled from the spec: a plan tree (section 6) — a filter node holding
its boolean expression and child, an opaque binary node, and a leaf. -/
inductive Plan where
  | filter (cond : Expr) (child : Plan)
  | node (l r : Plan)
  | leaf
  deriving Repr

/-- hash_in.go `applyHashIn` (lines 104-129) over the modelled plan
transform (`plan.TransformUpCtx`, bottom-up per the spec, section 6): each
filter node's expression tree is rewritten bottom-up by the callback, the
rebuilt expression replaces the filter's, a callback failure is the pass's
failure, and non-filter structure passes through. -/
def applyHashIn (S : TypeSys) : Plan → Except Err Plan
  | .filter cond child => do
      let child' ← applyHashIn S child
      let e ← exprTransformUp (applyHashInExprFn S) cond
      .ok (.filter e child')
  | .node l r => do
      let l' ← applyHashIn S l
      let r' ← applyHashIn S r
      .ok (.node l' r')
  | .leaf => .ok .leaf

/-- A schema column as validateAutoIncrement reads it
(validate_create_table.go): whether it is AUTO_INCREMENT, whether it is a
primary key, and whether its default value is non-nil (the default's
content is never inspected). -/
structure Column where
  autoIncrement : Bool
  primaryKey : Bool
  hasDefault : Bool
  deriving DecidableEq, Repr

/-- The error of validate_create_table.go's auto-increment validation. -/
inductive DdlErr where
  | invalidAutoIncCols
  deriving DecidableEq, Repr

/-- The loop of validate_create_table.go `validateAutoIncrement` (lines
45-65) with the `seen` flag threaded: an AUTO_INCREMENT column that is not
a primary key, or has a non-nil default, or follows an earlier
AUTO_INCREMENT column, is `ErrInvalidAutoIncCols`. -/
def validateAutoIncLoop : List Column → Bool → Option DdlErr
  | [], _ => none
  | col :: rest, seen =>
      if col.autoIncrement then
        if !col.primaryKey then some .invalidAutoIncCols
        else if col.hasDefault then some .invalidAutoIncCols
        else if seen then some .invalidAutoIncCols
        else validateAutoIncLoop rest true
      else validateAutoIncLoop rest seen

/-- validate_create_table.go `validateAutoIncrement`: scan the schema with
the `seen` flag initially unset; `none` is a nil error. -/
def validateAutoIncrement (schema : List Column) : Option DdlErr :=
  validateAutoIncLoop schema false

/-- The errors a child row iterator can return (plan package): `io.EOF`
for end of data, or any other error, distinguished by a numeric kind. -/
inductive GoErr where
  | eof
  | other (k : Nat)
  deriving DecidableEq, Repr

/-- error_handler.go `errorHandlerIter.Next` (lines 399-410) as a function
of the child iterator's result for one call: the pair it returns to its
caller together with the error the handler callback was invoked with, if
any.  `io.EOF` is returned as is; any other error is handed to the handler
and replaced by a nil error; a clean row passes through. -/
def errorHandlerIterNext (child : Option Row × Option GoErr) :
    (Option Row × Option GoErr) × Option GoErr :=
  match child with
  | (row, some .eof) => ((row, some .eof), none)
  | (row, some e) => ((row, none), some e)
  | (row, none) => ((row, none), none)

/-- Recognizer for the rewritten predicate. -/
def isHashIn : Expr → Bool
  | .hashInTuple _ _ _ _ => true
  | _ => false

theorem numColumns_promote (t : Ty) : numColumns t.promote = numColumns t := by
  cases t <;> rfl

theorem isNull_iff (t : Ty) : t.isNull = true ↔ t = .null := by
  cases t <;> simp [Ty.isNull]

theorem weight_pos (e : Expr) : 1 ≤ weight e := by
  cases e <;> simp [weight] <;> omega

/-- A type that is neither a tuple type nor the null type promotes to the
wide integer type or to text. -/
theorem scalar_promote (t : Ty) (hT : ∀ ts, t ≠ .tuple ts) (hN : t ≠ .null) :
    t.promote = .int64 ∨ t.promote = .text := by
  cases t with
  | tuple ts => exact absurd rfl (hT ts)
  | null => exact absurd rfl hN
  | int32 => exact Or.inl rfl
  | int64 => exact Or.inl rfl
  | boolean => exact Or.inl rfl
  | text => exact Or.inr rfl

theorem convertStd_int64_shape (v : Val) (w : Option Val)
    (h : convertStd .int64 (some v) = .ok w) : ∃ n, w = some (.i64 n) := by
  cases v <;> simp [convertStd] at h
  case i32 n => exact ⟨n, h.symm⟩
  case i64 n => exact ⟨n, h.symm⟩
  case b x => exact ⟨if x then 1 else 0, h.symm⟩

theorem convertStd_text_shape (v : Val) (w : Option Val)
    (h : convertStd .text (some v) = .ok w) : ∃ s, w = some (.str s) := by
  cases v <;> simp [convertStd] at h
  case str s => exact ⟨s, h.symm⟩

/-- Comparing two already-converted values at a promoted scalar type
reduces to the canonical value order: the re-conversion inside `Compare`
is the identity on canonical values. -/
theorem compareStd_canon (typ : Ty) (htyp : typ = .int64 ∨ typ = .text)
    (a b ca cb : Val)
    (ha : convertStd typ (some a) = .ok (some ca))
    (hb : convertStd typ (some b) = .ok (some cb)) :
    compareStd typ (some ca) (some cb) = .ok (valCompare ca cb) := by
  rcases htyp with h | h <;> subst h
  · obtain ⟨n, hn⟩ := convertStd_int64_shape a _ ha
    obtain ⟨m, hm⟩ := convertStd_int64_shape b _ hb
    cases hn; cases hm
    simp [compareStd, convertStd, valCompareOpt]
  · obtain ⟨n, hn⟩ := convertStd_text_shape a _ ha
    obtain ⟨m, hm⟩ := convertStd_text_shape b _ hb
    cases hn; cases hm
    simp [compareStd, convertStd, valCompareOpt]

theorem valCompare_i64_zero (a c : Int) : valCompare (.i64 a) (.i64 c) = 0 ↔ a = c := by
  simp only [valCompare]
  split
  · constructor
    · intro h; exact absurd h (by decide)
    · intro h; omega
  · split
    · simp_all
    · constructor
      · intro h; exact absurd h (by decide)
      · intro h; simp_all

theorem valCompare_str_zero (a c : String) : valCompare (.str a) (.str c) = 0 ↔ a = c := by
  simp only [valCompare]
  split
  · rename_i hlt
    constructor
    · intro h; exact absurd h (by decide)
    · intro h; subst h; exact absurd hlt (lt_irrefl a)
  · split
    · simp_all
    · constructor
      · intro h; exact absurd h (by decide)
      · intro h; simp_all

/-- C8: for every comparison type `t` and every pair of literal values that
convert to one canonical representation under `t`'s promoted type,
`hashOfLiteral` produces the same key, regardless of the original
representations. -/
theorem hashOfLiteral_canonical (S : TypeSys) (t : Ty) (v1 v2 : Option Val) (c : Option Val)
    (h1 : S.convert t.promote v1 = .ok c) (h2 : S.convert t.promote v2 = .ok c) :
    hashOfLiteral S v1 t = hashOfLiteral S v2 t := by
  simp only [hashOfLiteral, h1, h2]

/-- C8 witness: a narrow (32-bit) and a wide (64-bit) representation of 5,
hashed against the wide integer type, produce the same key. -/
theorem hashOfLiteral_canonical_witness :
    hashOfLiteral stdSys (some (.i32 5)) .int64 = hashOfLiteral stdSys (some (.i64 5)) .int64 ∧
      hashOfLiteral stdSys (some (.i32 5)) .int64 = .ok [some (.i64 5)] :=
  ⟨hashOfLiteral_canonical stdSys .int64 (some (.i32 5)) (some (.i64 5)) (some (.i64 5)) rfl rfl,
    rfl⟩

/-- C9: `errorHandlerIter.Next` propagates `io.EOF` to the caller without
invoking the handler, hands any other error to the handler and returns a
nil error in its place, and forwards a clean row unchanged. -/
theorem errorHandlerIterNext_spec (row : Option Row) (k : Nat) :
    errorHandlerIterNext (row, some .eof) = ((row, some .eof), none) ∧
      errorHandlerIterNext (row, some (.other k)) = ((row, none), some (.other k)) ∧
      errorHandlerIterNext (row, none) = ((row, none), none) :=
  ⟨rfl, rfl, rfl⟩


theorem validateAutoIncLoop_iff (s : List Column) : ∀ seen : Bool,
    validateAutoIncLoop s seen = some .invalidAutoIncCols ↔
      ((∃ c ∈ s, c.autoIncrement = true ∧ (c.primaryKey = false ∨ c.hasDefault = true)) ∨
        (seen = true ∧ 1 ≤ s.countP (fun c => c.autoIncrement)) ∨
        2 ≤ s.countP (fun c => c.autoIncrement)) := by
  induction s with
  | nil => intro seen; simp [validateAutoIncLoop, List.countP_nil]
  | cons c rest ih =>
      intro seen
      have hpos : 1 ≤ rest.countP (fun c => c.autoIncrement) ↔
          ∃ x ∈ rest, x.autoIncrement = true := by
        constructor
        · intro h
          have h0 : 0 < rest.countP (fun c => c.autoIncrement) := h
          simpa using List.countP_pos_iff.mp h0
        · intro h
          have h0 : 0 < rest.countP (fun c => c.autoIncrement) :=
            List.countP_pos_iff.mpr (by simpa using h)
          omega
      rw [validateAutoIncLoop, List.countP_cons]
      split_ifs with h1 h2 h3 h4
      · exact iff_of_true rfl (Or.inl ⟨c, List.mem_cons_self c rest, h1,
          Or.inl (by revert h2; cases c.primaryKey <;> simp)⟩)
      · exact iff_of_true rfl (Or.inl ⟨c, List.mem_cons_self c rest, h1, Or.inr h3⟩)
      · refine iff_of_true rfl (Or.inr (Or.inl ⟨h4, ?_⟩))
        omega
      · have hpk : c.primaryKey = true := by revert h2; cases c.primaryKey <;> simp
        have hdf : c.hasDefault = false := by revert h3; cases c.hasDefault <;> simp
        have hsn : seen = false := by revert h4; cases seen <;> simp
        rw [ih true]
        simp only [h1, if_true, hsn]
        constructor
        · rintro (h | ⟨-, h⟩ | h)
          · rcases h with ⟨x, hx, ha, hb⟩
            exact Or.inl ⟨x, List.mem_cons_of_mem c hx, ha, hb⟩
          · right; right; omega
          · right; right; omega
        · rintro (h | ⟨hf, -⟩ | h)
          · rcases h with ⟨x, hx, ha, hb⟩
            rcases List.mem_cons.mp hx with h' | h'
            · subst h'
              rcases hb with hb | hb
              · rw [hpk] at hb; cases hb
              · rw [hdf] at hb; cases hb
            · exact Or.inl ⟨x, h', ha, hb⟩
          · cases hf
          · have h1r : 1 ≤ rest.countP (fun c => c.autoIncrement) := by omega
            exact Or.inr (Or.inl ⟨trivial, h1r⟩)
      · have ha : c.autoIncrement = false := by revert h1; cases c.autoIncrement <;> simp
        rw [ih seen]
        simp only [ha, Bool.false_eq_true, if_false, Nat.add_zero]
        constructor
        · rintro (h | h | h)
          · rcases h with ⟨x, hx, hb, hc⟩
            exact Or.inl ⟨x, List.mem_cons_of_mem c hx, hb, hc⟩
          · exact Or.inr (Or.inl h)
          · exact Or.inr (Or.inr h)
        · rintro (h | h | h)
          · rcases h with ⟨x, hx, hb, hc⟩
            rcases List.mem_cons.mp hx with h' | h'
            · subst h'; rw [ha] at hb; cases hb
            · exact Or.inl ⟨x, h', hb, hc⟩
          · exact Or.inr (Or.inl h)
          · exact Or.inr (Or.inr h)

/-- C10: `validateAutoIncrement` returns `ErrInvalidAutoIncCols` exactly
when the schema has an AUTO_INCREMENT column that is not a primary key or
has a non-nil default value, or has two or more AUTO_INCREMENT columns;
on every other schema it returns nil. -/
theorem validateAutoIncrement_iff (s : List Column) :
    (validateAutoIncrement s = some .invalidAutoIncCols ↔
      ((∃ c ∈ s, c.autoIncrement = true ∧ (c.primaryKey = false ∨ c.hasDefault = true)) ∨
        2 ≤ s.countP (fun c => c.autoIncrement))) ∧
    (validateAutoIncrement s = none ↔
      ¬ ((∃ c ∈ s, c.autoIncrement = true ∧ (c.primaryKey = false ∨ c.hasDefault = true)) ∨
        2 ≤ s.countP (fun c => c.autoIncrement))) := by
  have h := validateAutoIncLoop_iff s false
  have hmain : validateAutoIncrement s = some .invalidAutoIncCols ↔
      ((∃ c ∈ s, c.autoIncrement = true ∧ (c.primaryKey = false ∨ c.hasDefault = true)) ∨
        2 ≤ s.countP (fun c => c.autoIncrement)) := by
    rw [validateAutoIncrement, h]
    constructor
    · rintro (h' | ⟨h', -⟩ | h')
      · exact Or.inl h'
      · cases h'
      · exact Or.inr h'
    · rintro (h' | h')
      · exact Or.inl h'
      · exact Or.inr (Or.inr h')
  refine ⟨hmain, ?_, ?_⟩
  · intro hnone hcond
    rw [hmain.mpr hcond] at hnone
    cases hnone
  · intro hcond
    match hres : validateAutoIncrement s with
    | none => rfl
    | some e =>
        cases e
        exact absurd (hmain.mp hres) hcond

/-- C6: the rewrite's per-node action turns an `InTuple` into a
`HashInTuple` only when the left operand is a tuple, a literal or a field
reference; for an `InTuple` with any other left operand kind — in
particular a subquery — the predicate is returned unchanged, and no
`HashInTuple` is produced. -/
theorem applyHashInExprFn_eligible (S : TypeSys) (l r : Expr) :
    (hashInEligible l = false → applyHashInExprFn S (.inTuple l r) = .ok (.inTuple l r)) ∧
    (∀ out, applyHashInExprFn S (.inTuple l r) = .ok out → isHashIn out = true →
      hashInEligible l = true) := by
  constructor
  · intro h
    cases l <;> first
      | rfl
      | (exact absurd h (by simp [hashInEligible]))
  · intro out hout hhash
    cases l with
    | tuple es => rfl
    | lit v t => rfl
    | getField i t => rfl
    | inTuple a c =>
        simp only [applyHashInExprFn] at hout
        cases hout
        cases hhash
    | hashInTuple a c m hn =>
        simp only [applyHashInExprFn] at hout
        cases hout
        cases hhash
    | subquery t =>
        simp only [applyHashInExprFn] at hout
        cases hout
        cases hhash

/-- C6 demonstration at a subquery left operand: the predicate passes
through the rewrite callback unchanged. -/
theorem applyHashInExprFn_eligible_witness :
    applyHashInExprFn stdSys (.inTuple (.subquery .int64) (.tuple [])) =
      .ok (.inTuple (.subquery .int64) (.tuple [])) :=
  (applyHashInExprFn_eligible stdSys (.subquery .int64) (.tuple [])).1 rfl

/-- C1: evaluating the pass at a filter whose predicate is
`3 IN (field0)` — a literal left operand, so the rewrite is attempted, and
a field-reference candidate, so the index build fails — the pass returns
the build error `ErrUnsupportedHashInSubexpression` to its caller instead
of leaving the node unchanged. -/
theorem applyHashIn_surfaces_build_error :
    newInMap stdSys (.tuple [.getField 0 .int64]) .int64 =
      .error .unsupportedHashInSubexpression ∧
    applyHashIn stdSys (.filter (.inTuple (.lit (some (.i64 3)) .int64)
        (.tuple [.getField 0 .int64])) .leaf) =
      .error .unsupportedHashInSubexpression :=
  ⟨rfl, rfl⟩

/-- The scan loop returns true at the first equality: everything after the
matching element — `post` is arbitrary and may not even evaluate — is
never reached. -/
theorem inLoop_true_of_match (S : TypeSys) (typ : Ty) (left : Option Val) (row : Row) :
    ∀ (pre : List Expr) (m : Expr) (post : List Expr),
    (∀ el ∈ pre, ∃ rv crv c, evalExpr S el row = .ok (some rv) ∧
      S.convert typ (some rv) = .ok crv ∧ S.compare typ left crv = .ok c ∧ c ≠ 0) →
    (∃ rv crv, evalExpr S m row = .ok (some rv) ∧
      S.convert typ (some rv) = .ok crv ∧ S.compare typ left crv = .ok 0) →
    inLoop S typ left (pre ++ m :: post) row false = .ok (some (.b true)) := by
  intro pre
  induction pre with
  | nil =>
      intro m post _ hm
      obtain ⟨rv, crv, he, hc, hcmp⟩ := hm
      rw [List.nil_append, inLoop, he]
      simp only [Bind.bind, Except.bind, Option.isNone_some, Bool.not_false, Bool.and_false,
        Bool.false_eq_true, if_false, hc, hcmp]
      simp
  | cons p pre' ih =>
      intro m post hpre hm
      obtain ⟨rv, crv, c, he, hc, hcmp, hne⟩ := hpre p (List.mem_cons_self p pre')
      rw [List.cons_append, inLoop, he]
      simp only [Bind.bind, Except.bind, Option.isNone_some, Bool.not_false, Bool.and_false,
        Bool.false_eq_true, if_false, hc, hcmp, if_neg hne]
      exact ih m post (fun el hel => hpre el (List.mem_cons_of_mem p hel)) hm

/-- C5 (amended): `InTuple.Eval` verifies the column arity of all
right-hand elements up front — any mismatch aborts with that arity error
before any element is evaluated — and only then scans the elements in
order, returning true immediately at the first equality without touching
the elements after it. -/
theorem inTupleEval_order (S : TypeSys) (l : Expr) (els : List Expr) (row : Row)
    (lv : Val) (left : Option Val)
    (hl : evalExpr S l row = .ok (some lv))
    (hc : S.convert (exprType l).promote (some lv) = .ok left) :
    (∀ err, arityCheck (numColumns (exprType l).promote) els = some err →
        evalExpr S (.inTuple l (.tuple els)) row = .error err) ∧
    (∀ pre m post, els = pre ++ m :: post →
        arityCheck (numColumns (exprType l).promote) els = none →
        (∀ el ∈ pre, ∃ rv crv c, evalExpr S el row = .ok (some rv) ∧
          S.convert (exprType l).promote (some rv) = .ok crv ∧
          S.compare (exprType l).promote left crv = .ok c ∧ c ≠ 0) →
        (∃ rv crv, evalExpr S m row = .ok (some rv) ∧
          S.convert (exprType l).promote (some rv) = .ok crv ∧
          S.compare (exprType l).promote left crv = .ok 0) →
        evalExpr S (.inTuple l (.tuple els)) row = .ok (some (.b true))) := by
  constructor
  · intro err harr
    rw [evalExpr, hl]
    simp only [Bind.bind, Except.bind, hc, harr]
  · intro pre m post hsplit harr hpre hm
    rw [evalExpr, hl]
    simp only [Bind.bind, Except.bind, hc, harr]
    rw [hsplit]
    exact inLoop_true_of_match S (exprType l).promote left row pre m post hpre hm

/-- C5 witness: `3 IN (5, 3, subquery)` — the second element matches, the
arity pre-check passes, and the result is true even though the trailing
subquery cannot be evaluated at all. -/
theorem inTupleEval_order_witness :
    evalExpr stdSys (.inTuple (.lit (some (.i64 3)) .int64)
        (.tuple [.lit (some (.i64 5)) .int64, .lit (some (.i64 3)) .int64,
          .subquery .int64])) [] = .ok (some (.b true)) := by
  refine (inTupleEval_order stdSys (.lit (some (.i64 3)) .int64)
      [.lit (some (.i64 5)) .int64, .lit (some (.i64 3)) .int64, .subquery .int64] []
      (.i64 3) (some (.i64 3)) (by simp [evalExpr]) rfl).2
      [.lit (some (.i64 5)) .int64] (.lit (some (.i64 3)) .int64) [.subquery .int64]
      rfl rfl ?_ ?_
  · intro el hel
    rcases List.mem_singleton.mp hel with rfl
    refine ⟨.i64 5, some (.i64 5), -1, by simp [evalExpr], rfl, ?_, by decide⟩
    simp [compareStd, convertStd, valCompareOpt, valCompare, stdSys, exprType, Ty.promote]
  · refine ⟨.i64 3, some (.i64 3), by simp [evalExpr], rfl, ?_⟩
    simp [compareStd, convertStd, valCompareOpt, valCompare, stdSys, exprType, Ty.promote]

/-- C5 counterexample: in `3 IN (3, (1, 2))` the first element equals the
left value, yet `InTuple.Eval` returns the arity error for the second
element — the up-front arity loop runs before any element is evaluated, so
a later element's arity failure is not short-circuited by an earlier
match.  The second conjunct records that the first element does match. -/
theorem inTuple_arity_precheck_cex :
    evalExpr stdSys (.inTuple (.lit (some (.i64 3)) .int64)
        (.tuple [.lit (some (.i64 3)) .int64,
          .tuple [.lit (some (.i64 1)) .int64, .lit (some (.i64 2)) .int64]])) [] =
      .error (.invalidOperandColumns 1 2) ∧
    compareStd .int64 (some (.i64 3)) (some (.i64 3)) = .ok 0 := by
  constructor
  · simp [evalExpr, arityCheck, stdSys, convertStd, exprType, exprTypeList, numColumns,
      Ty.promote, Bind.bind, Except.bind]
  · simp [compareStd, convertStd, valCompareOpt, valCompare]

/-- The always-unknown flag built by `newInMap` is exactly the null-type
check on the left operand's declared type. -/
theorem newInMap_ok_flag (S : TypeSys) (r : Expr) (t : Ty) (cmp : List (HKey × Expr)) (hn : Bool)
    (h : newInMap S r t = .ok (cmp, hn)) : hn = t.isNull := by
  rw [newInMap.eq_def] at h
  by_cases hq : t.isNull = true
  · rw [if_pos hq] at h
    simp only [Except.ok.injEq, Prod.mk.injEq] at h
    rw [← h.2, hq]
  · rw [if_neg hq] at h
    have hq' : t.isNull = false := by revert hq; cases t.isNull <;> simp
    rw [hq']
    split at h
    · split at h
      · cases h
      · simp only [Except.ok.injEq, Prod.mk.injEq] at h
        exact h.2.symm
    · cases h

/-- The index wrapped by a successful `NewHashInTuple` is its `newInMap`
result. -/
theorem NewHashInTuple_ok (S : TypeSys) (l r : Expr) (cmp : List (HKey × Expr)) (hn : Bool)
    (hb : NewHashInTuple S l r = .ok (.hashInTuple l r cmp hn)) :
    newInMap S r (exprType l) = .ok (cmp, hn) := by
  rw [NewHashInTuple] at hb
  match hm : newInMap S r (exprType l) with
  | .error e => rw [hm] at hb; cases hb
  | .ok (c', h') =>
      rw [hm] at hb
      simp only [Except.ok.injEq, Expr.hashInTuple.injEq] at hb
      obtain ⟨-, -, hc, hh⟩ := hb
      rw [hc, hh]

/-- C3: for an index built by `NewHashInTuple`, `HashInTuple.Eval` returns
unknown exactly when the left operand's declared type is the null type
(the index was built with the always-unknown flag set) or the materialized
left operand evaluates to NULL for the row; and whenever the probe of the
index actually happens and misses, the result is false, never unknown. -/
theorem hashInTupleEval_unknown (S : TypeSys) (l r : Expr) (cmp : List (HKey × Expr))
    (hn : Bool) (row : Row)
    (hb : NewHashInTuple S l r = .ok (.hashInTuple l r cmp hn)) :
    (evalExpr S (.hashInTuple l r cmp hn) row = .ok none ↔
      (exprType l = .null ∨ ∃ nl, normalizeLeft row l = .ok nl ∧ evalExpr S nl row = .ok none)) ∧
    (∀ nl v key, hn = false → normalizeLeft row l = .ok nl →
      evalExpr S nl row = .ok (some v) → hashOf S nl (exprType l) = .ok key →
      mapLookup cmp key = none →
      evalExpr S (.hashInTuple l r cmp hn) row = .ok (some (.b false))) := by
  have hmap := NewHashInTuple_ok S l r cmp hn hb
  have hflag := newInMap_ok_flag S r (exprType l) cmp hn hmap
  cases hn with
  | true =>
      have hnull : exprType l = .null := (isNull_iff _).mp hflag.symm
      constructor
      · exact iff_of_true (by simp [evalExpr]) (Or.inl hnull)
      · intro nl v key hfalse
        cases hfalse
  | false =>
      have hnn : exprType l ≠ .null := by
        intro hEq
        rw [hEq] at hflag
        cases hflag
      constructor
      · simp only [evalExpr, Bool.false_eq_true, if_false]
        split
        case _ e heq =>
            constructor
            · intro h; cases h
            · rintro (h | ⟨nl, hnl2, -⟩)
              · exact absurd h hnn
              · rw [heq] at hnl2; cases hnl2
        case _ nl heq =>
            have hdet : ∀ P : Prop, (∃ nl2, normalizeLeft row l = .ok nl2 ∧
                evalExpr S nl2 row = .ok none) → (evalExpr S nl row = .ok none → P) → P := by
              rintro P ⟨nl2, hnl2, hev2⟩ hk
              rw [heq] at hnl2
              cases hnl2
              exact hk hev2
            match hev : evalExpr S nl row with
            | .error e =>
                simp only [Bind.bind, Except.bind]
                constructor
                · intro h; cases h
                · rintro (h | hex)
                  · exact absurd h hnn
                  · exact hdet _ hex (fun h2 => by rw [hev] at h2; cases h2)
            | .ok none =>
                simp only [Bind.bind, Except.bind]
                exact iff_of_true trivial (Or.inr ⟨nl, heq, hev⟩)
            | .ok (some v) =>
                simp only [Bind.bind, Except.bind]
                have hRHS : ¬ (exprType l = .null ∨ ∃ nl2, normalizeLeft row l = .ok nl2 ∧
                    evalExpr S nl2 row = .ok none) := by
                  rintro (h | hex)
                  · exact absurd h hnn
                  · exact hdet _ hex (fun h2 => by rw [hev] at h2; cases h2)
                refine iff_of_false ?_ hRHS
                match hho : hashOf S nl (exprType l) with
                | .error e => simp
                | .ok key =>
                    simp only [Bind.bind, Except.bind]
                    match hlk : mapLookup cmp key with
                    | none => simp
                    | some e2 =>
                        by_cases har : numColumns (exprType e2).promote =
                            numColumns (exprType nl).promote
                        · simp [har]
                        · simp [har]
      · intro nl v key hfalse h1 h2 h3 h4
        simp only [evalExpr, Bool.false_eq_true, if_false]
        split
        case _ e heq => rw [h1] at heq; cases heq
        case _ nl2 heq =>
            rw [h1] at heq
            cases heq
            rw [h2]
            simp only [Bind.bind, Except.bind, h3, h4]

/-- C3 witness: with the index of `3 IN (5)` — non-null left type, the
materialized left value 3 present, and the probe missing — the result is
false. -/
theorem hashInTupleEval_unknown_witness :
    evalExpr stdSys (.hashInTuple (.lit (some (.i64 3)) .int64)
        (.tuple [.lit (some (.i64 5)) .int64])
        [([some (.i64 5)], .lit (some (.i64 5)) .int64)] false) [] = .ok (some (.b false)) :=
  (hashInTupleEval_unknown stdSys (.lit (some (.i64 3)) .int64)
      (.tuple [.lit (some (.i64 5)) .int64])
      [([some (.i64 5)], .lit (some (.i64 5)) .int64)] false [] rfl).2
    (.lit (some (.i64 3)) .int64) (.i64 3) [some (.i64 3)] rfl rfl (by simp [evalExpr]) rfl rfl

/-- A type system that agrees with the standard one on every non-NULL
input but rejects converting NULL: it witnesses which evaluations convert
a NULL value. -/
def deviantNullConvSys : TypeSys :=
  { convert := fun t v =>
      match v with
      | none => .error .convError
      | some w => convertStd t (some w),
    compare := compareStd }

/-- C4 counterexample: in `3 IN (NULL, NULL)` the second NULL element is
converted (and compared): under the deviant system — identical to the
standard one except at NULL conversions — the evaluation fails with the
conversion error, while under the standard system it returns unknown.
Were every NULL element skipped without conversion, as the claim states,
the two results would agree. -/
theorem inTuple_second_null_converted_cex :
    evalExpr deviantNullConvSys (.inTuple (.lit (some (.i64 3)) .int64)
        (.tuple [.lit none .int64, .lit none .int64])) [] = .error .convError ∧
    evalExpr stdSys (.inTuple (.lit (some (.i64 3)) .int64)
        (.tuple [.lit none .int64, .lit none .int64])) [] = .ok none := by
  constructor
  · simp [evalExpr, inLoop, arityCheck, deviantNullConvSys, stdSys, convertStd, compareStd,
      exprType, exprTypeList, numColumns, Ty.promote, Bind.bind, Except.bind]
  · simp [evalExpr, inLoop, arityCheck, stdSys, convertStd, compareStd,
      exprType, exprTypeList, numColumns, Ty.promote, valCompareOpt, Bind.bind, Except.bind]

theorem stdSys_convert : stdSys.convert = convertStd := rfl

theorem stdSys_compare : stdSys.compare = compareStd := rfl

/-- The scan loop under the standard system, when no element matches:
the result is unknown when the null flag is set or some element evaluates
to NULL, and false when the flag is unset and no element does.  Later NULL
elements are converted and compared, but the standard conversion maps NULL
to NULL and the standard comparison orders NULL strictly below the
converted non-NULL left value, so they produce no match and no error. -/
theorem inLoop_std_nomatch (typ : Ty) (clv : Val) (row : Row) :
    ∀ (els : List Expr),
    (∀ el ∈ els, ∃ v, evalExpr stdSys el row = .ok v ∧
      (∀ w, v = some w → ∃ crv c, convertStd typ (some w) = .ok crv ∧
        compareStd typ (some clv) crv = .ok c ∧ c ≠ 0)) →
    ∀ b : Bool,
    ((b = true ∨ ∃ el ∈ els, evalExpr stdSys el row = .ok none) →
      inLoop stdSys typ (some clv) els row b = .ok none) ∧
    ((b = false ∧ ∀ el ∈ els, ¬ evalExpr stdSys el row = .ok none) →
      inLoop stdSys typ (some clv) els row b = .ok (some (.b false))) := by
  intro els
  induction els with
  | nil =>
      intro _ b
      constructor
      · rintro (hb | ⟨el, hel, -⟩)
        · rw [hb, inLoop]; rfl
        · cases hel
      · rintro ⟨hb, -⟩
        rw [hb, inLoop]; rfl
  | cons el rest ih =>
      intro hall b
      obtain ⟨v, hev, hv⟩ := hall el (List.mem_cons_self el rest)
      have ihrest := ih (fun e he => hall e (List.mem_cons_of_mem el he))
      match v, hev with
      | none, hev =>
          cases b with
          | false =>
              constructor
              · intro _
                have hrest : inLoop stdSys typ (some clv) rest row true = .ok none :=
                  (ihrest true).1 (Or.inl rfl)
                rw [inLoop, hev]
                simp [Bind.bind, Except.bind, hrest]
              · rintro ⟨-, hnone⟩
                exact absurd hev (hnone el (List.mem_cons_self el rest))
          | true =>
              constructor
              · intro _
                have hconv : convertStd typ none = .ok none := by
                  rw [convertStd.eq_def]; cases typ <;> rfl
                have hcmp : compareStd typ (some clv) none = .ok 1 := rfl
                have hrest : inLoop stdSys typ (some clv) rest row true = .ok none :=
                  (ihrest true).1 (Or.inl rfl)
                rw [inLoop, hev]
                simp [Bind.bind, Except.bind, stdSys_convert, stdSys_compare, hconv, hcmp, hrest]
              · rintro ⟨hb, -⟩
                cases hb
      | some w, hev =>
          obtain ⟨crv, c, hconv, hcmp, hc⟩ := hv w rfl
          have hstep : ∀ b', inLoop stdSys typ (some clv) (el :: rest) row b' =
              inLoop stdSys typ (some clv) rest row b' := by
            intro b'
            rw [inLoop, hev]
            simp [Bind.bind, Except.bind, stdSys_convert, stdSys_compare, hconv, hcmp, hc]
          constructor
          · rintro (hb | ⟨e2, he2, hnull⟩)
            · rw [hstep]
              exact (ihrest b).1 (Or.inl hb)
            · rcases List.mem_cons.mp he2 with rfl | he2'
              · rw [hev] at hnull; cases hnull
              · rw [hstep]
                exact (ihrest b).1 (Or.inr ⟨e2, he2', hnull⟩)
          · rintro ⟨hb, hnone⟩
            rw [hstep]
            exact (ihrest b).2 ⟨hb, fun e2 he2 => hnone e2 (List.mem_cons_of_mem el he2)⟩

/-- C4 (amended): in `InTuple.Eval` only the first right-hand element that
evaluates to NULL is recorded and skipped without conversion or
comparison; every later NULL element is converted and compared like a
non-NULL one (harmlessly under the standard type operations, which convert
NULL to NULL and order it below any non-NULL value); and when the scan
ends without a match, the result is unknown if any right element was NULL
and false otherwise. -/
theorem inTupleEval_null_candidates (l : Expr) (els : List Expr) (row : Row)
    (lv clv : Val)
    (hl : evalExpr stdSys l row = .ok (some lv))
    (hc : convertStd (exprType l).promote (some lv) = .ok (some clv))
    (harr : arityCheck (numColumns (exprType l).promote) els = none)
    (hall : ∀ el ∈ els, ∃ v, evalExpr stdSys el row = .ok v ∧
      (∀ w, v = some w → ∃ crv c, convertStd (exprType l).promote (some w) = .ok crv ∧
        compareStd (exprType l).promote (some clv) crv = .ok c ∧ c ≠ 0)) :
    ((∃ el ∈ els, evalExpr stdSys el row = .ok none) →
      evalExpr stdSys (.inTuple l (.tuple els)) row = .ok none) ∧
    ((∀ el ∈ els, ¬ evalExpr stdSys el row = .ok none) →
      evalExpr stdSys (.inTuple l (.tuple els)) row = .ok (some (.b false))) := by
  have hloop := inLoop_std_nomatch (exprType l).promote clv row els hall false
  constructor
  · intro hex
    rw [evalExpr, hl]
    simp only [Bind.bind, Except.bind, stdSys, hc, harr]
    exact hloop.1 (Or.inr hex)
  · intro hnone
    rw [evalExpr, hl]
    simp only [Bind.bind, Except.bind, stdSys, hc, harr]
    exact hloop.2 ⟨rfl, hnone⟩

/-- C4 witness: `3 IN (NULL, 5)` is unknown, and `3 IN (5, 7)` is false. -/
theorem inTupleEval_null_candidates_witness :
    evalExpr stdSys (.inTuple (.lit (some (.i64 3)) .int64)
        (.tuple [.lit none .int64, .lit (some (.i64 5)) .int64])) [] = .ok none ∧
    evalExpr stdSys (.inTuple (.lit (some (.i64 3)) .int64)
        (.tuple [.lit (some (.i64 5)) .int64, .lit (some (.i64 7)) .int64])) [] =
      .ok (some (.b false)) := by
  constructor
  · refine (inTupleEval_null_candidates (.lit (some (.i64 3)) .int64)
        [.lit none .int64, .lit (some (.i64 5)) .int64] [] (.i64 3) (.i64 3)
        (by simp [evalExpr]) rfl rfl ?_).1
        ⟨.lit none .int64, by simp, by simp [evalExpr]⟩
    intro el hel
    simp only [List.mem_cons, List.not_mem_nil, or_false] at hel
    rcases hel with rfl | rfl
    · exact ⟨none, by simp [evalExpr], fun w hw => by cases hw⟩
    · refine ⟨some (.i64 5), by simp [evalExpr], fun w hw => ?_⟩
      cases hw
      exact ⟨some (.i64 5), -1, rfl,
        by simp [compareStd, convertStd, exprType, Ty.promote, valCompareOpt, valCompare],
        by decide⟩
  · refine (inTupleEval_null_candidates (.lit (some (.i64 3)) .int64)
        [.lit (some (.i64 5)) .int64, .lit (some (.i64 7)) .int64] [] (.i64 3) (.i64 3)
        (by simp [evalExpr]) rfl rfl ?_).2 ?_
    · intro el hel
      simp only [List.mem_cons, List.not_mem_nil, or_false] at hel
      rcases hel with rfl | rfl
      · refine ⟨some (.i64 5), by simp [evalExpr], fun w hw => ?_⟩
        cases hw
        exact ⟨some (.i64 5), -1, rfl,
          by simp [compareStd, convertStd, exprType, Ty.promote, valCompareOpt, valCompare],
          by decide⟩
      · refine ⟨some (.i64 7), by simp [evalExpr], fun w hw => ?_⟩
        cases hw
        exact ⟨some (.i64 7), -1, rfl,
          by simp [compareStd, convertStd, exprType, Ty.promote, valCompareOpt, valCompare],
          by decide⟩
    · intro el hel
      simp only [List.mem_cons, List.not_mem_nil, or_false] at hel
      rcases hel with rfl | rfl
      · intro h; simp [evalExpr] at h
      · intro h; simp [evalExpr] at h

theorem weight_mem_list (e : Expr) : ∀ es : List Expr, e ∈ es → weight e ≤ weightList es := by
  intro es
  induction es with
  | nil => intro h; cases h
  | cons a as ih =>
      intro h
      rcases List.mem_cons.mp h with rfl | h'
      · simp only [weightList]; omega
      · have := ih h'
        simp only [weightList]
        omega

theorem transformList_ok_mem (f : Expr → Except Err Expr) :
    ∀ (es es' : List Expr), exprTransformUpList f es = .ok es' →
    ∀ e' ∈ es', ∃ e ∈ es, exprTransformUp f e = .ok e' := by
  intro es
  induction es with
  | nil =>
      intro es' h
      rw [exprTransformUpList] at h
      cases h
      intro e' he'
      cases he'
  | cons a as ih =>
      intro es' h
      rw [exprTransformUpList] at h
      match ha : exprTransformUp f a with
      | .error err => rw [ha] at h; cases h
      | .ok a' =>
          rw [ha] at h
          match has : exprTransformUpList f as with
          | .error err => rw [has] at h; cases h
          | .ok as' =>
              rw [has] at h
              cases h
              intro e' he'
              rcases List.mem_cons.mp he' with rfl | he2
              · exact ⟨a, List.mem_cons_self a as, ha⟩
              · obtain ⟨e0, he0, htr⟩ := ih as' has e' he2
                exact ⟨e0, List.mem_cons_of_mem a he0, htr⟩

theorem stableList (f : Expr → Except Err Expr) :
    ∀ es : List Expr, (∀ e ∈ es, exprTransformUp f e = .ok e) →
    exprTransformUpList f es = .ok es := by
  intro es
  induction es with
  | nil => intro _; rw [exprTransformUpList]
  | cons a as ih =>
      intro h
      rw [exprTransformUpList, h a (List.mem_cons_self a as),
        ih (fun e he => h e (List.mem_cons_of_mem a he))]

/-- The callback's result on a membership predicate is either the
predicate unchanged or its hashed replacement over the same operands. -/
theorem applyHashInExprFn_shape (S : TypeSys) (l r o : Expr)
    (h : applyHashInExprFn S (.inTuple l r) = .ok o) :
    o = .inTuple l r ∨ ∃ cmp hn, o = .hashInTuple l r cmp hn := by
  cases l with
  | tuple es =>
      simp only [applyHashInExprFn, NewHashInTuple] at h
      match hm : newInMap S r (exprType (.tuple es)) with
      | .error e1 => rw [hm] at h; cases h
      | .ok (cmp, hn) =>
          rw [hm] at h
          cases h
          exact Or.inr ⟨cmp, hn, rfl⟩
  | lit v t =>
      simp only [applyHashInExprFn, NewHashInTuple] at h
      match hm : newInMap S r (exprType (.lit v t)) with
      | .error e1 => rw [hm] at h; cases h
      | .ok (cmp, hn) =>
          rw [hm] at h
          cases h
          exact Or.inr ⟨cmp, hn, rfl⟩
  | getField i t =>
      simp only [applyHashInExprFn, NewHashInTuple] at h
      match hm : newInMap S r (exprType (.getField i t)) with
      | .error e1 => rw [hm] at h; cases h
      | .ok (cmp, hn) =>
          rw [hm] at h
          cases h
          exact Or.inr ⟨cmp, hn, rfl⟩
  | inTuple a c =>
      simp only [applyHashInExprFn] at h
      cases h
      exact Or.inl rfl
  | hashInTuple a c m hn =>
      simp only [applyHashInExprFn] at h
      cases h
      exact Or.inl rfl
  | subquery t =>
      simp only [applyHashInExprFn] at h
      cases h
      exact Or.inl rfl

/-- The output of the rewrite's bottom-up expression transform is a fixed
point of the transform. -/
theorem transform_stable (S : TypeSys) : ∀ (n : Nat) (e : Expr), weight e ≤ n →
    ∀ out, exprTransformUp (applyHashInExprFn S) e = .ok out →
    exprTransformUp (applyHashInExprFn S) out = .ok out := by
  intro n
  induction n with
  | zero =>
      intro e he
      have := weight_pos e
      omega
  | succ n ih =>
      intro e he out hout
      cases e with
      | lit v t =>
          simp only [exprTransformUp, applyHashInExprFn] at hout
          cases hout
          simp only [exprTransformUp, applyHashInExprFn]
      | getField i t =>
          simp only [exprTransformUp, applyHashInExprFn] at hout
          cases hout
          simp only [exprTransformUp, applyHashInExprFn]
      | subquery t =>
          simp only [exprTransformUp, applyHashInExprFn] at hout
          cases hout
          simp only [exprTransformUp, applyHashInExprFn]
      | tuple es =>
          simp only [exprTransformUp] at hout
          match hes : exprTransformUpList (applyHashInExprFn S) es with
          | .error e1 => rw [hes] at hout; cases hout
          | .ok es' =>
              rw [hes] at hout
              simp only [applyHashInExprFn] at hout
              cases hout
              have hstable : ∀ e' ∈ es', exprTransformUp (applyHashInExprFn S) e' = .ok e' := by
                intro e' he'
                obtain ⟨e0, he0, htr⟩ := transformList_ok_mem (applyHashInExprFn S) es es' hes e' he'
                have hw : weight e0 ≤ n := by
                  have h1 := weight_mem_list e0 es he0
                  simp only [weight] at he
                  omega
                exact ih e0 hw e' htr
              simp only [exprTransformUp, stableList (applyHashInExprFn S) es' hstable,
                applyHashInExprFn]
      | inTuple l r =>
          simp only [exprTransformUp] at hout
          match hl : exprTransformUp (applyHashInExprFn S) l with
          | .error e1 => rw [hl] at hout; cases hout
          | .ok l' =>
              rw [hl] at hout
              match hr : exprTransformUp (applyHashInExprFn S) r with
              | .error e1 => rw [hr] at hout; cases hout
              | .ok r' =>
                  rw [hr] at hout
                  have hwl : weight l ≤ n := by simp only [weight] at he; have := weight_pos r; omega
                  have hwr : weight r ≤ n := by simp only [weight] at he; have := weight_pos l; omega
                  have hstl : exprTransformUp (applyHashInExprFn S) l' = .ok l' := ih l hwl l' hl
                  have hstr : exprTransformUp (applyHashInExprFn S) r' = .ok r' := ih r hwr r' hr
                  rcases applyHashInExprFn_shape S l' r' out hout with rfl | ⟨cmp, hn, rfl⟩
                  · simp only [exprTransformUp, hstl, hstr]
                    exact hout
                  · simp only [exprTransformUp, hstl, hstr]
                    exact hout
      | hashInTuple l r cmp0 hn0 =>
          simp only [exprTransformUp] at hout
          match hl : exprTransformUp (applyHashInExprFn S) l with
          | .error e1 => rw [hl] at hout; cases hout
          | .ok l' =>
              rw [hl] at hout
              match hr : exprTransformUp (applyHashInExprFn S) r with
              | .error e1 => rw [hr] at hout; cases hout
              | .ok r' =>
                  rw [hr] at hout
                  have hwl : weight l ≤ n := by simp only [weight] at he; have := weight_pos r; omega
                  have hwr : weight r ≤ n := by simp only [weight] at he; have := weight_pos l; omega
                  have hstl : exprTransformUp (applyHashInExprFn S) l' = .ok l' := ih l hwl l' hl
                  have hstr : exprTransformUp (applyHashInExprFn S) r' = .ok r' := ih r hwr r' hr
                  rcases applyHashInExprFn_shape S l' r' out hout with rfl | ⟨cmp, hn, rfl⟩
                  · simp only [exprTransformUp, hstl, hstr]
                    exact hout
                  · simp only [exprTransformUp, hstl, hstr]
                    exact hout

/-- C7: applying the `applyHashIn` pass twice yields what one application
yields — a successfully rewritten plan is a fixed point of the pass
(value-wise: a rebuilt `HashInTuple` goes through the embedded `InTuple`
rebuild and is reconstructed by the same deterministic index build). -/
theorem applyHashIn_idem (S : TypeSys) : ∀ (p p' : Plan),
    applyHashIn S p = .ok p' → applyHashIn S p' = .ok p' := by
  intro p
  induction p with
  | leaf =>
      intro p' h
      rw [applyHashIn] at h
      cases h
      rfl
  | node l r ihl ihr =>
      intro p' h
      rw [applyHashIn] at h
      match hl : applyHashIn S l with
      | .error e => rw [hl] at h; cases h
      | .ok l' =>
          rw [hl] at h
          simp only [Bind.bind, Except.bind] at h
          match hr : applyHashIn S r with
          | .error e => rw [hr] at h; cases h
          | .ok r' =>
              rw [hr] at h
              cases h
              rw [applyHashIn, ihl l' hl]
              simp only [Bind.bind, Except.bind, ihr r' hr]
  | filter cond child ih =>
      intro p' h
      rw [applyHashIn] at h
      match hc : applyHashIn S child with
      | .error e => rw [hc] at h; cases h
      | .ok child' =>
          rw [hc] at h
          simp only [Bind.bind, Except.bind] at h
          match he : exprTransformUp (applyHashInExprFn S) cond with
          | .error e => rw [he] at h; cases h
          | .ok e' =>
              rw [he] at h
              cases h
              rw [applyHashIn, ih child' hc]
              simp only [Bind.bind, Except.bind,
                transform_stable S (weight cond) cond (Nat.le_refl _) e' he]

/-- C7 witness: the pass maps the plan of `3 IN (5)` to its hashed form,
and a second application leaves that result unchanged. -/
theorem applyHashIn_idem_witness :
    applyHashIn stdSys (.filter (.hashInTuple (.lit (some (.i64 3)) .int64)
        (.tuple [.lit (some (.i64 5)) .int64])
        [([some (.i64 5)], .lit (some (.i64 5)) .int64)] false) .leaf) =
      .ok (.filter (.hashInTuple (.lit (some (.i64 3)) .int64)
        (.tuple [.lit (some (.i64 5)) .int64])
        [([some (.i64 5)], .lit (some (.i64 5)) .int64)] false) .leaf) :=
  applyHashIn_idem stdSys
    (.filter (.inTuple (.lit (some (.i64 3)) .int64)
      (.tuple [.lit (some (.i64 5)) .int64])) .leaf)
    (.filter (.hashInTuple (.lit (some (.i64 3)) .int64)
      (.tuple [.lit (some (.i64 5)) .int64])
      [([some (.i64 5)], .lit (some (.i64 5)) .int64)] false) .leaf)
    rfl

/-- One step of the `newInMap` element loop on a successful build: the
element is a literal or a tuple, and it was either skipped on a
`sql.ErrInvalidType` hash failure or inserted under its key. -/
theorem buildMap_cons_ok (S : TypeSys) (el : Expr) (rest : List Expr) (t : Ty)
    (acc m : List (HKey × Expr)) (h : buildMap S (el :: rest) t acc = .ok m) :
    ((hashOf S el t = .error .invalidType ∧ buildMap S rest t acc = .ok m) ∨
      (∃ key, hashOf S el t = .ok key ∧ buildMap S rest t (mapInsert acc key el) = .ok m)) ∧
    ((∃ v tl, el = .lit v tl) ∨ (∃ es2, el = .tuple es2)) := by
  cases el with
  | lit v tl =>
      refine ⟨?_, Or.inl ⟨v, tl, rfl⟩⟩
      rw [buildMap] at h
      match hho : hashOf S (.lit v tl) t with
      | .error err =>
          rw [hho] at h
          cases err
          case invalidType => exact Or.inl ⟨rfl, h⟩
          all_goals exact Except.noConfusion h
      | .ok key =>
          rw [hho] at h
          exact Or.inr ⟨key, rfl, h⟩
  | tuple es2 =>
      refine ⟨?_, Or.inr ⟨es2, rfl⟩⟩
      rw [buildMap] at h
      match hho : hashOf S (.tuple es2) t with
      | .error err =>
          rw [hho] at h
          cases err
          case invalidType => exact Or.inl ⟨rfl, h⟩
          all_goals exact Except.noConfusion h
      | .ok key =>
          rw [hho] at h
          exact Or.inr ⟨key, rfl, h⟩
  | getField i tl => exact Except.noConfusion h
  | inTuple a c => exact Except.noConfusion h
  | hashInTuple a c m0 hn0 => exact Except.noConfusion h
  | subquery tl => exact Except.noConfusion h



theorem evalExpr_lit (S : TypeSys) (v : Option Val) (t : Ty) (row : Row) :
    evalExpr S (.lit v t) row = .ok v := by
  simp [evalExpr]

theorem evalExpr_getField (S : TypeSys) (i : Nat) (t : Ty) (row : Row) :
    evalExpr S (.getField i t) row = getFieldEval i row := by
  simp [evalExpr]

theorem hashOf_tuple_scalar (S : TypeSys) (es : List Expr) (t : Ty)
    (hT : ∀ ts, t ≠ .tuple ts) : hashOf S (.tuple es) t = .error .invalidType := by
  cases t with
  | tuple ts => exact absurd rfl (hT ts)
  | int32 => rfl
  | int64 => rfl
  | boolean => rfl
  | text => rfl
  | null => rfl

theorem mapLookup_insert_self (m : List (HKey × Expr)) (k : HKey) (v : Expr) :
    mapLookup (mapInsert m k v) k = some v := by
  induction m with
  | nil => simp [mapInsert, mapLookup]
  | cons p rest ih =>
      obtain ⟨k2, v2⟩ := p
      by_cases h : k2 = k
      · simp [mapInsert, mapLookup, h]
      · simp [mapInsert, mapLookup, h, ih]

theorem mapLookup_insert_ne (m : List (HKey × Expr)) (k k2 : HKey) (v : Expr)
    (h : k2 ≠ k) : mapLookup (mapInsert m k v) k2 = mapLookup m k2 := by
  induction m with
  | nil => simp [mapInsert, mapLookup, Ne.symm h]
  | cons p rest ih =>
      obtain ⟨k0, v0⟩ := p
      by_cases h0 : k0 = k
      · subst h0
        simp only [mapInsert, if_pos rfl]
        simp [mapLookup, Ne.symm h]
      · simp only [mapInsert, if_neg h0]
        by_cases h1 : k0 = k2
        · simp [mapLookup, h1]
        · simp [mapLookup, h1, ih]

theorem mapInsert_preserves (m : List (HKey × Expr)) (k k0 : HKey) (v : Expr)
    (h : mapLookup m k ≠ none) : mapLookup (mapInsert m k0 v) k ≠ none := by
  by_cases he : k = k0
  · subst he
    rw [mapLookup_insert_self]
    intro hx; cases hx
  · rw [mapLookup_insert_ne m k0 k v he]
    exact h

theorem buildMap_lookup_or (S : TypeSys) (t : Ty) :
    ∀ (els : List Expr) (acc m : List (HKey × Expr)), buildMap S els t acc = .ok m →
    ∀ k e, mapLookup m k = some e →
      mapLookup acc k = some e ∨ (e ∈ els ∧ hashOf S e t = .ok k) := by
  intro els
  induction els with
  | nil =>
      intro acc m h k e hk
      have h2 : Except.ok (ε := Err) acc = .ok m := h
      cases h2
      exact Or.inl hk
  | cons el rest ih =>
      intro acc m h k e hk
      rcases (buildMap_cons_ok S el rest t acc m h).1 with ⟨hskip, hrest⟩ | ⟨key, hkey, hrest⟩
      · rcases ih acc m hrest k e hk with h1 | ⟨h2, h3⟩
        · exact Or.inl h1
        · exact Or.inr ⟨List.mem_cons_of_mem _ h2, h3⟩
      · rcases ih _ m hrest k e hk with h1 | ⟨h2, h3⟩
        · by_cases hkk : k = key
          · subst hkk
            rw [mapLookup_insert_self] at h1
            cases h1
            exact Or.inr ⟨List.mem_cons_self _ _, hkey⟩
          · rw [mapLookup_insert_ne acc key k el hkk] at h1
            exact Or.inl h1
        · exact Or.inr ⟨List.mem_cons_of_mem _ h2, h3⟩

theorem buildMap_lookup_present (S : TypeSys) (t : Ty) :
    ∀ (els : List Expr) (acc m : List (HKey × Expr)), buildMap S els t acc = .ok m →
    ∀ k, (mapLookup acc k ≠ none ∨ ∃ el ∈ els, hashOf S el t = .ok k) →
    mapLookup m k ≠ none := by
  intro els
  induction els with
  | nil =>
      intro acc m h k hin
      have h2 : Except.ok (ε := Err) acc = .ok m := h
      cases h2
      rcases hin with h1 | ⟨el, hel, -⟩
      · exact h1
      · cases hel
  | cons el rest ih =>
      intro acc m h k hin
      rcases (buildMap_cons_ok S el rest t acc m h).1 with ⟨hskip, hrest⟩ | ⟨key, hkey, hrest⟩
      · refine ih acc m hrest k ?_
        rcases hin with h1 | ⟨el2, hel2, h3⟩
        · exact Or.inl h1
        · rcases List.mem_cons.mp hel2 with rfl | hel3
          · rw [hskip] at h3; cases h3
          · exact Or.inr ⟨el2, hel3, h3⟩
      · refine ih _ m hrest k ?_
        rcases hin with h1 | ⟨el2, hel2, h3⟩
        · exact Or.inl (mapInsert_preserves acc k key el h1)
        · rcases List.mem_cons.mp hel2 with rfl | hel3
          · rw [hkey] at h3
            cases h3
            refine Or.inl ?_
            rw [mapLookup_insert_self]
            intro hx; cases hx
          · exact Or.inr ⟨el2, hel3, h3⟩

theorem buildMap_shapes (S : TypeSys) (t : Ty) :
    ∀ (els : List Expr) (acc m : List (HKey × Expr)), buildMap S els t acc = .ok m →
    ∀ el ∈ els, (∃ v tl, el = .lit v tl) ∨ (∃ es2, el = .tuple es2) := by
  intro els
  induction els with
  | nil => intro acc m _ el hel; cases hel
  | cons el0 rest ih =>
      intro acc m h el hel
      obtain ⟨hstep, hshape⟩ := buildMap_cons_ok S el0 rest t acc m h
      rcases List.mem_cons.mp hel with rfl | hel2
      · exact hshape
      · rcases hstep with ⟨-, hrest⟩ | ⟨key, -, hrest⟩
        · exact ih acc m hrest el hel2
        · exact ih _ m hrest el hel2

theorem arityCheck_none_iff (n : Nat) :
    ∀ els : List Expr, arityCheck n els = none ↔ ∀ el ∈ els, numColumns (exprType el) = n := by
  intro els
  induction els with
  | nil => simp [arityCheck]
  | cons el rest ih =>
      rw [arityCheck]
      by_cases h : numColumns (exprType el) ≠ n
      · rw [if_pos h]
        constructor
        · intro hx; cases hx
        · intro hx
          exact absurd (hx el (List.mem_cons_self el rest)) h
      · rw [if_neg h]
        push_neg at h
        rw [ih]
        constructor
        · intro hx el2 hel2
          rcases List.mem_cons.mp hel2 with rfl | hel3
          · exact h
          · exact hx el2 hel3
        · intro hx el2 hel2
          exact hx el2 (List.mem_cons_of_mem el hel2)

/-- On a non-null left type, a successful index build from a tuple right
operand is the element-loop build. -/
theorem newInMap_tuple_build (S : TypeSys) (es : List Expr) (t : Ty)
    (m : List (HKey × Expr)) (hn : Bool)
    (h : newInMap S (.tuple es) t = .ok (m, hn)) (hq : t.isNull = false) :
    buildMap S es t [] = .ok m := by
  rw [newInMap.eq_def, hq] at h
  simp only [Bool.false_eq_true, if_false] at h
  match hbm : buildMap S es t [] with
  | .error e => rw [hbm] at h; cases h
  | .ok m2 =>
      rw [hbm] at h
      simp only [Except.ok.injEq, Prod.mk.injEq] at h
      rw [h.1]

/-- The scan loop under the standard system at a canonical scalar left
value: if every element evaluates to a non-null value that converts, and
some element's converted value equals the left value, the loop returns
true. -/
theorem inLoop_std_match (typ : Ty) (clv : Val) (row : Row)
    (htyp : typ = .int64 ∨ typ = .text)
    (hcl : ∃ lv0, convertStd typ (some lv0) = .ok (some clv)) :
    ∀ els : List Expr,
    (∀ el ∈ els, ∃ rv crv, evalExpr stdSys el row = .ok (some rv) ∧
      convertStd typ (some rv) = .ok (some crv)) →
    (∃ el ∈ els, ∃ rv crv, evalExpr stdSys el row = .ok (some rv) ∧
      convertStd typ (some rv) = .ok (some crv) ∧ valCompare clv crv = 0) →
    ∀ b, inLoop stdSys typ (some clv) els row b = .ok (some (.b true)) := by
  obtain ⟨lv0, hlv0⟩ := hcl
  intro els
  induction els with
  | nil =>
      rintro - ⟨el, hel, -⟩ b
      cases hel
  | cons el rest ih =>
      intro hall hex b
      obtain ⟨rv, crv, hev, hcv⟩ := hall el (List.mem_cons_self el rest)
      have hcmp : compareStd typ (some clv) (some crv) = .ok (valCompare clv crv) :=
        compareStd_canon typ htyp lv0 rv clv crv hlv0 hcv
      rw [inLoop, hev]
      simp only [Bind.bind, Except.bind, Option.isNone_some, Bool.and_false,
        Bool.false_eq_true, if_false, stdSys_convert, stdSys_compare, hcv, hcmp]
      by_cases hz : valCompare clv crv = 0
      · rw [if_pos hz]
      · rw [if_neg hz]
        refine ih (fun e he => hall e (List.mem_cons_of_mem el he)) ?_ b
        rcases hex with ⟨el2, hel2, rv2, crv2, hev2, hcv2, hz2⟩
        rcases List.mem_cons.mp hel2 with rfl | hel3
        · rw [hev] at hev2
          cases hev2
          rw [hcv] at hcv2
          cases hcv2
          exact absurd hz2 hz
        · exact ⟨el2, hel3, rv2, crv2, hev2, hcv2, hz2⟩

/-- C2 counterexample, in two parts, each with no null candidate so the
claimed equivalence applies to both.  Part one, `3 IN (5, (1, 2))`: no
candidate matches, so the claim requires both evaluators to return false;
the index build succeeds (the row-valued candidate is silently skipped
because it cannot be hashed at the scalar left type) and
`HashInTuple.Eval` returns false, but `InTuple.Eval` fails with the arity
error from its up-front column check.  Part two, a row-valued left,
`(true) IN ((2))`: the single candidate evaluates without error to a
non-null value of matching arity, the build succeeds, yet the evaluators
return opposite booleans — `InTuple.Eval` converts the candidate at the
promoted left type, and a tuple type promotes to itself with unpromoted
element types, so `2` converts at the boolean element type to `true` and
matches; the hash path instead canonicalizes each tuple element at its
element-promoted type (boolean promotes to the wide integer type), so the
candidate is indexed under `2` while the probe hashes the left under `1`,
and the probe misses.  So `InTuple.Eval` returns true where
`HashInTuple.Eval` returns false, with every candidate non-null,
convertible and of matching arity: agreement fails for row-valued left
operands even under the provisos that repair the scalar case. -/
theorem inTuple_hashIn_divergence_cex :
    (NewHashInTuple stdSys (.lit (some (.i64 3)) .int64)
        (.tuple [.lit (some (.i64 5)) .int64,
          .tuple [.lit (some (.i64 1)) .int64, .lit (some (.i64 2)) .int64]]) =
      .ok (.hashInTuple (.lit (some (.i64 3)) .int64)
        (.tuple [.lit (some (.i64 5)) .int64,
          .tuple [.lit (some (.i64 1)) .int64, .lit (some (.i64 2)) .int64]])
        [([some (.i64 5)], .lit (some (.i64 5)) .int64)] false) ∧
    evalExpr stdSys (.inTuple (.lit (some (.i64 3)) .int64)
        (.tuple [.lit (some (.i64 5)) .int64,
          .tuple [.lit (some (.i64 1)) .int64, .lit (some (.i64 2)) .int64]])) [] =
      .error (.invalidOperandColumns 1 2) ∧
    evalExpr stdSys (.hashInTuple (.lit (some (.i64 3)) .int64)
        (.tuple [.lit (some (.i64 5)) .int64,
          .tuple [.lit (some (.i64 1)) .int64, .lit (some (.i64 2)) .int64]])
        [([some (.i64 5)], .lit (some (.i64 5)) .int64)] false) [] =
      .ok (some (.b false))) ∧
    (NewHashInTuple stdSys (.tuple [.lit (some (.b true)) .boolean])
        (.tuple [.tuple [.lit (some (.i64 2)) .int64]]) =
      .ok (.hashInTuple (.tuple [.lit (some (.b true)) .boolean])
        (.tuple [.tuple [.lit (some (.i64 2)) .int64]])
        [([some (.i64 2)], .tuple [.lit (some (.i64 2)) .int64])] false) ∧
    evalExpr stdSys (.inTuple (.tuple [.lit (some (.b true)) .boolean])
        (.tuple [.tuple [.lit (some (.i64 2)) .int64]])) [] = .ok (some (.b true)) ∧
    evalExpr stdSys (.hashInTuple (.tuple [.lit (some (.b true)) .boolean])
        (.tuple [.tuple [.lit (some (.i64 2)) .int64]])
        [([some (.i64 2)], .tuple [.lit (some (.i64 2)) .int64])] false) [] =
      .ok (some (.b false))) := by
  refine ⟨⟨rfl, ?_, ?_⟩, rfl, ?_, ?_⟩
  · simp [evalExpr, arityCheck, stdSys, convertStd, exprType, exprTypeList, numColumns,
      Ty.promote, Bind.bind, Except.bind]
  · simp [evalExpr, normalizeLeft, hashOf, hashOfLiteral, stdSys, convertStd, exprType,
      Ty.promote, mapLookup, Bind.bind, Except.bind]
  · simp [evalExpr, evalElems, inLoop, arityCheck, stdSys, convertStd, convertStdList,
      compareStd, valCompare, valCompareList, valCompareOpt, exprType, exprTypeList,
      numColumns, Ty.promote, Bind.bind, Except.bind]
  · simp [evalExpr, evalElems, normalizeLeft, exprTransformUp, exprTransformUpList,
      fieldToLiteral, hashOf, hashOfTuple, hashOfLiteral, stdSys, convertStd, exprType,
      exprTypeList, Ty.promote, mapLookup, Bind.bind, Except.bind]

/-- C2 (amended): over a scalar-typed (non-row-valued, non-null-typed)
left operand that is a literal or a field reference, and right-hand
candidates that all evaluate to non-null values convertible at the
promoted left type, `InTuple.Eval` and `HashInTuple.Eval` (over the index
`NewHashInTuple` built) agree: both return false when no candidate's
canonical value equals the left's, and both return true when some
candidate's does.  Each proviso answers a recorded divergence: the
candidate-side conditions exclude the candidates `newInMap` silently
skips, where the baseline errors and the hashed side returns false, and
the scalar-left condition excludes row-valued left operands, where the
baseline compares candidates at the unpromoted tuple element types while
the hash path canonicalizes them at element-promoted types, so the two
return opposite booleans. -/
theorem inTuple_hashIn_agree
    (L : Expr) (els : List Expr) (cmp : List (HKey × Expr)) (row : Row) (lv clv : Val)
    (hL : (∃ v t0, L = .lit v t0) ∨ (∃ i t0, L = .getField i t0))
    (hT : ∀ ts, exprType L ≠ .tuple ts)
    (hb : NewHashInTuple stdSys L (.tuple els) = .ok (.hashInTuple L (.tuple els) cmp false))
    (hl : evalExpr stdSys L row = .ok (some lv))
    (hc : convertStd (exprType L).promote (some lv) = .ok (some clv))
    (harr : arityCheck (numColumns (exprType L).promote) els = none)
    (hall : ∀ el ∈ els, ∃ rv crv, evalExpr stdSys el row = .ok (some rv) ∧
      convertStd (exprType L).promote (some rv) = .ok (some crv)) :
    ((∀ el ∈ els, ∀ rv crv, evalExpr stdSys el row = .ok (some rv) →
        convertStd (exprType L).promote (some rv) = .ok (some crv) → valCompare clv crv ≠ 0) →
      evalExpr stdSys (.inTuple L (.tuple els)) row = .ok (some (.b false)) ∧
      evalExpr stdSys (.hashInTuple L (.tuple els) cmp false) row = .ok (some (.b false))) ∧
    ((∃ el ∈ els, ∃ rv crv, evalExpr stdSys el row = .ok (some rv) ∧
        convertStd (exprType L).promote (some rv) = .ok (some crv) ∧ valCompare clv crv = 0) →
      evalExpr stdSys (.inTuple L (.tuple els)) row = .ok (some (.b true)) ∧
      evalExpr stdSys (.hashInTuple L (.tuple els) cmp false) row = .ok (some (.b true))) := by
  have hmap := NewHashInTuple_ok stdSys L (.tuple els) cmp false hb
  have hflag := newInMap_ok_flag stdSys (.tuple els) (exprType L) cmp false hmap
  have hq : (exprType L).isNull = false := hflag.symm
  have hnn : exprType L ≠ .null := by
    intro hEq
    rw [hEq] at hq
    cases hq
  have hbuild := newInMap_tuple_build stdSys els (exprType L) cmp false hmap hq
  have htyp := scalar_promote (exprType L) hT hnn
  have hnl : normalizeLeft row L = .ok (.lit (some lv) (exprType L)) := by
    rcases hL with ⟨v, t0, rfl⟩ | ⟨i, t0, rfl⟩
    · rw [evalExpr_lit] at hl
      cases hl
      rfl
    · rw [evalExpr_getField] at hl
      rw [normalizeLeft, hl]
      rfl
  have hkey : hashOf stdSys (.lit (some lv) (exprType L)) (exprType L) = .ok [some clv] := by
    simp only [hashOf, hashOfLiteral, stdSys_convert, hc]
  have hIn : evalExpr stdSys (.inTuple L (.tuple els)) row =
      inLoop stdSys (exprType L).promote (some clv) els row false := by
    rw [evalExpr, hl]
    simp only [Bind.bind, Except.bind, stdSys_convert, hc, harr]
  have hHash : evalExpr stdSys (.hashInTuple L (.tuple els) cmp false) row =
      (match mapLookup cmp [some clv] with
       | none => .ok (some (.b false))
       | some right =>
           if numColumns (exprType right).promote ≠ numColumns (exprType L).promote then
             .error (.invalidOperandColumns (numColumns (exprType L).promote)
               (numColumns (exprType right).promote))
           else .ok (some (.b true))) := by
    simp only [evalExpr, Bool.false_eq_true, if_false]
    split
    case _ e heq => rw [hnl] at heq; cases heq
    case _ nl2 heq =>
        rw [hnl] at heq
        cases heq
        rw [evalExpr_lit]
        simp only [Bind.bind, Except.bind, hkey]
        simp only [exprType]
  have hrefl : valCompare clv clv = 0 := by
    rcases htyp with ht | ht
    · rw [ht] at hc
      obtain ⟨a, ha⟩ := convertStd_int64_shape lv _ hc
      cases ha
      simp [valCompare]
    · rw [ht] at hc
      obtain ⟨a, ha⟩ := convertStd_text_shape lv _ hc
      cases ha
      simp [valCompare]
  constructor
  · intro hno
    constructor
    · rw [hIn]
      refine (inLoop_std_nomatch (exprType L).promote clv row els ?_ false).2 ⟨rfl, ?_⟩
      · intro el hel
        obtain ⟨rv, crv, hev, hcv⟩ := hall el hel
        refine ⟨some rv, hev, fun w hw => ?_⟩
        cases hw
        exact ⟨some crv, valCompare clv crv, hcv,
          compareStd_canon _ htyp lv rv clv crv hc hcv, hno el hel rv crv hev hcv⟩
      · intro el hel hnone
        obtain ⟨rv, crv, hev, -⟩ := hall el hel
        rw [hev] at hnone
        cases hnone
    · rw [hHash]
      have hmiss : mapLookup cmp [some clv] = none := by
        match hlk : mapLookup cmp [some clv] with
        | none => rfl
        | some e2 =>
            exfalso
            rcases buildMap_lookup_or stdSys (exprType L) els [] cmp hbuild [some clv] e2 hlk
              with h1 | ⟨h2, h3⟩
            · exact Option.noConfusion h1
            · rcases buildMap_shapes stdSys (exprType L) els [] cmp hbuild e2 h2
                with ⟨v2, t2, rfl⟩ | ⟨es2, rfl⟩
              · rw [hashOf] at h3
                rw [hashOfLiteral] at h3
                rw [stdSys_convert] at h3
                obtain ⟨rv2, crv2, hev2, hcv2⟩ := hall _ h2
                rw [evalExpr_lit] at hev2
                cases hev2
                rw [hcv2] at h3
                simp only [Except.ok.injEq, List.cons.injEq] at h3
                have hcrv2 : crv2 = clv := by
                  have := h3.1
                  cases this
                  rfl
                rw [hcrv2] at hcv2
                exact hno _ h2 rv2 clv (evalExpr_lit _ _ _ _) hcv2 hrefl
              · rw [hashOf_tuple_scalar stdSys es2 (exprType L) hT] at h3
                exact Except.noConfusion h3
      rw [hmiss]
  · rintro ⟨el0, hel0, rv0, crv0, hev0, hcv0, hz0⟩
    have hclv_eq : crv0 = clv := by
      rcases htyp with ht | ht
      · rw [ht] at hc hcv0
        obtain ⟨a, ha⟩ := convertStd_int64_shape lv _ hc
        obtain ⟨b2, hb2⟩ := convertStd_int64_shape rv0 _ hcv0
        cases ha
        cases hb2
        rw [show b2 = a from ((valCompare_i64_zero a b2).mp hz0).symm]
      · rw [ht] at hc hcv0
        obtain ⟨a, ha⟩ := convertStd_text_shape lv _ hc
        obtain ⟨b2, hb2⟩ := convertStd_text_shape rv0 _ hcv0
        cases ha
        cases hb2
        rw [show b2 = a from ((valCompare_str_zero a b2).mp hz0).symm]
    constructor
    · rw [hIn]
      exact inLoop_std_match (exprType L).promote clv row htyp ⟨lv, hc⟩ els hall
        ⟨el0, hel0, rv0, crv0, hev0, hcv0, hz0⟩ false
    · rw [hHash]
      have hlitshape : ∃ v2 t2, el0 = .lit v2 t2 := by
        rcases buildMap_shapes stdSys (exprType L) els [] cmp hbuild el0 hel0
          with h | ⟨es2, rfl⟩
        · exact h
        · exfalso
          rw [evalExpr] at hev0
          match hve : evalElems stdSys es2 row with
          | .error e =>
              rw [hve] at hev0
              simp only [Bind.bind, Except.bind] at hev0
              exact Except.noConfusion hev0
          | .ok vs =>
              rw [hve] at hev0
              simp only [Bind.bind, Except.bind, Except.ok.injEq, Option.some.injEq] at hev0
              rcases htyp with ht | ht
              · rw [ht] at hcv0
                rw [← hev0] at hcv0
                exact Except.noConfusion hcv0
              · rw [ht] at hcv0
                rw [← hev0] at hcv0
                exact Except.noConfusion hcv0
      obtain ⟨v2, t2, rfl⟩ := hlitshape
      rw [evalExpr_lit] at hev0
      cases hev0
      have hho : hashOf stdSys (.lit (some rv0) t2) (exprType L) = .ok [some clv] := by
        simp only [hashOf, hashOfLiteral, stdSys_convert, hcv0, hclv_eq]
      have hpresent := buildMap_lookup_present stdSys (exprType L) els [] cmp hbuild [some clv]
        (Or.inr ⟨.lit (some rv0) t2, hel0, hho⟩)
      match hlk : mapLookup cmp [some clv] with
      | none => exact absurd hlk hpresent
      | some e2 =>
          rcases buildMap_lookup_or stdSys (exprType L) els [] cmp hbuild [some clv] e2 hlk
            with h1 | ⟨h2, -⟩
          · exact Option.noConfusion h1
          · have harety := (arityCheck_none_iff (numColumns (exprType L).promote) els).mp harr e2 h2
            have hcond : ¬(numColumns (exprType e2).promote ≠ numColumns (exprType L).promote) :=
              fun hne => hne (by rw [numColumns_promote, harety])
            simp only [if_neg hcond]

/-- C2 witness: for `3 IN (5)` — scalar left, one convertible non-null
candidate, no match — both evaluators return false. -/
theorem inTuple_hashIn_agree_witness :
    evalExpr stdSys (.inTuple (.lit (some (.i64 3)) .int64)
        (.tuple [.lit (some (.i64 5)) .int64])) [] = .ok (some (.b false)) ∧
    evalExpr stdSys (.hashInTuple (.lit (some (.i64 3)) .int64)
        (.tuple [.lit (some (.i64 5)) .int64])
        [([some (.i64 5)], .lit (some (.i64 5)) .int64)] false) [] =
      .ok (some (.b false)) := by
  refine (inTuple_hashIn_agree (.lit (some (.i64 3)) .int64) [.lit (some (.i64 5)) .int64]
      [([some (.i64 5)], .lit (some (.i64 5)) .int64)] [] (.i64 3) (.i64 3)
      (Or.inl ⟨some (.i64 3), .int64, rfl⟩)
      (fun ts h => Ty.noConfusion h)
      rfl
      (by simp [evalExpr])
      rfl
      rfl
      ?_).1 ?_
  · intro el hel
    simp only [List.mem_cons, List.not_mem_nil, or_false] at hel
    subst hel
    exact ⟨.i64 5, .i64 5, by simp [evalExpr], rfl⟩
  · intro el hel rv crv hev hcv
    simp only [List.mem_cons, List.not_mem_nil, or_false] at hel
    subst hel
    rw [evalExpr_lit] at hev
    cases hev
    simp only [exprType, Ty.promote, convertStd, Except.ok.injEq, Option.some.injEq] at hcv
    rw [← hcv]
    decide
